import Mathlib

/-!
CapSensePiano: metal-detector trigger and key-sequence lock.

A shallow embedding of `src/src/CapSensePiano.cpp`.  The sketch has two parts
that run one after the other in `loop()`:

* the metal detector (lines 72-118): accumulate 20 in-band frequency samples,
  average them, arm or disarm `trigger` with hysteresis, and raise
  `FREQ_TRIGGER_PIN` once the trigger has been armed for more than 100 ms;
* the capacitive keys (lines 125-154): scan the four keys and advance
  `arrayIndex` through `initialArray`, pulsing `LED_PIN` for 10 s when the
  whole sequence has been entered.

Globals become fields of `State`; the values read from the hardware in one
pass of `loop()` become fields of `Input`; the writes to the buzzer and the
LED become a list of `Effect`s.  Failing operations (division by zero, a read
outside `initialArray`) return `none`.
-/

namespace CapSensePiano

/-! ## Constants and state -/

/-- Length of the sequence: `#define SEQUENCE_SIZE 5` (line 29). -/
def SEQUENCE_SIZE : Nat := 5

/-- The target sequence: `int initialArray[SEQUENCE_SIZE] = {0, 1, 2, 3, 0};`
(line 39). -/
def initialArray : List Int := [0, 1, 2, 3, 0]

/-- Number of values of an `unsigned long` (32 bits on the Arduino). -/
def ULONG_RANGE : Nat := 4294967296

/-- Unsigned 32-bit subtraction, as in `millis() - startTriggerMillis`. -/
def usub (a b : Nat) : Nat :=
  (a % ULONG_RANGE + ULONG_RANGE - b % ULONG_RANGE) % ULONG_RANGE

/-- The global variables of the sketch (lines 40-45) together with the level
last written to `FREQ_TRIGGER_PIN`. -/
structure State where
  /-- Cursor into the target sequence: `size_t arrayIndex` (line 40). -/
  arrayIndex : Nat
  /-- Time at which the trigger was armed: `unsigned long startTriggerMillis`
  (line 42). -/
  startTriggerMillis : Nat
  /-- Whether the detector is armed: `bool trigger` (line 43). -/
  trigger : Bool
  /-- Number of accepted readings in the window: `int avg_count` (line 44). -/
  avg_count : Int
  /-- Sum of the accepted readings: `unsigned long sum_freq` (line 45). -/
  sum_freq : Nat
  /-- Level of `FREQ_TRIGGER_PIN`: `true` is `HIGH`. -/
  triggerPin : Bool
  deriving DecidableEq, Repr

/-- The state after `setup()` (lines 40-45 and 61): globals hold their
initialisers (`startTriggerMillis` is zero-initialised) and the trigger pin
has been written `LOW`. -/
def setup : State :=
  { arrayIndex := 0, startTriggerMillis := 0, trigger := false,
    avg_count := 0, sum_freq := 0, triggerPin := false }

/-- What one pass of `loop()` reads from the hardware. -/
structure Input where
  /-- Value of `freq` (line 78).  It is integral: `1000000 / pulseTotal` is an
  integer division whose quotient is then stored in a `double`. -/
  freq : Int
  /-- Value of `millis()` at line 97. -/
  millisArm : Nat
  /-- Value of `millis()` at line 115. -/
  millisCheck : Nat
  /-- Whether `keys[i].capacitiveSensor(NUM_OF_SAMPLES) > CAP_THRESHOLD`
  (line 128). -/
  keys : Nat → Bool

/-- Writes to the buzzer and the LED, and the blocking delays between them. -/
inductive Effect where
  /-- Call `tone(BUZZER_PIN, notes[i])` (line 130). -/
  | tone (i : Int)
  /-- Call `delay(ms)` (lines 131 and 143). -/
  | delay (ms : Nat)
  /-- Call `noTone(BUZZER_PIN)` (line 132). -/
  | noTone
  /-- Call `digitalWrite(LED_PIN, level)` (lines 142 and 144). -/
  | ledWrite (high : Bool)
  deriving DecidableEq, Repr

/-! ## Metal detector (lines 72-118) -/

/-- Lines 81-85: a reading strictly between 8000 and 9500 is added to
`sum_freq` and counted; any other reading is thrown out.  The C++ addition
goes through floating point and back to `unsigned long`; it is exact for the
integral readings and the sums the window can hold, and is embedded as 32-bit
unsigned addition. -/
def sample (s : State) (freq : Int) : State :=
  if freq > 8000 ∧ freq < 9500 then
    { s with sum_freq := (s.sum_freq + freq.toNat) % ULONG_RANGE,
             avg_count := s.avg_count + 1 }
  else s

/-- Line 90: `sum_freq / avg_count`, an `unsigned long` division (the `int`
divisor is converted to `unsigned long`), so the quotient is truncated before
it is stored in `frequency`.  Dividing by zero has no result. -/
def average (s : State) : Option Nat :=
  if (s.avg_count % (ULONG_RANGE : Int)).toNat = 0 then none
  else some (s.sum_freq / (s.avg_count % (ULONG_RANGE : Int)).toNat)

/-- Lines 93-106: the hysteresis on the averaged frequency. -/
def hysteresis (s : State) (frequency : Nat) (now : Nat) : State :=
  if frequency < 8900 then
    if s.trigger = false then
      { s with startTriggerMillis := now, trigger := true }
    else s
  else if frequency > 9000 then
    { s with trigger := false, triggerPin := false }
  else s

/-- Lines 88-111, the `else` branch taken when `avg_count < 20` fails:
average, apply the hysteresis, reset the window. -/
def resolve (s : State) (now : Nat) : Option State :=
  match average s with
  | none => none
  | some frequency =>
    some { hysteresis s frequency now with sum_freq := 0, avg_count := 0 }

/-- Condition of line 115: `trigger && millis() - startTriggerMillis > 100`. -/
def outputCondition (s : State) (now : Nat) : Bool :=
  s.trigger && decide (usub now s.startTriggerMillis > 100)

/-- Lines 115-118: write `HIGH` to the trigger pin when the condition holds. -/
def outputCheck (s : State) (now : Nat) : State :=
  if outputCondition s now then { s with triggerPin := true } else s

/-- Lines 72-118: the metal-detector half of `loop()`. -/
def metalDetector (s : State) (inp : Input) : Option State :=
  match (if s.avg_count < 20 then some (sample s inp.freq)
         else resolve s inp.millisArm) with
  | none => none
  | some t => some (outputCheck t inp.millisCheck)

/-! ## Capacitive keys (lines 125-154) -/

/-- Lines 130-132: play the note of key `i` for half a second. -/
def toneEffects (i : Int) : List Effect :=
  [Effect.tone i, Effect.delay 500, Effect.noTone]

/-- Lines 142-144: the unlock action, the LED held high for 10 s. -/
def unlockAction : List Effect :=
  [Effect.ledWrite true, Effect.delay 10000, Effect.ledWrite false]

/-- Result of handling one active key: the new `arrayIndex`, the effects, and
whether the `for` loop is left through `break`. -/
structure KeyResult where
  arrayIndex : Nat
  effects : List Effect
  brk : Bool
  deriving DecidableEq, Repr

/-- Lines 130-152: the body run for a key `i` that reads above threshold.
Reading `initialArray[arrayIndex]` outside the array has no result. -/
def onKey (arrayIndex : Nat) (i : Int) : Option KeyResult :=
  match initialArray[arrayIndex]? with
  | none => none
  | some expected =>
    if i = expected then
      if arrayIndex + 1 = SEQUENCE_SIZE then
        some ⟨0, toneEffects i ++ unlockAction, true⟩
      else
        some ⟨arrayIndex + 1, toneEffects i, false⟩
    else
      some ⟨0, toneEffects i, false⟩

/-- Lines 125-154: `n` further rounds of the `for` loop starting at key `i`. -/
def scanKeys (keys : Nat → Bool) : Nat → Nat → Nat → Option (Nat × List Effect)
  | 0, _, arrayIndex => some (arrayIndex, [])
  | n + 1, i, arrayIndex =>
    if keys i then
      match onKey arrayIndex (i : Int) with
      | none => none
      | some r =>
        if r.brk then some (r.arrayIndex, r.effects)
        else
          match scanKeys keys n (i + 1) r.arrayIndex with
          | none => none
          | some (a, es) => some (a, r.effects ++ es)
    else scanKeys keys n (i + 1) arrayIndex

/-- Lines 125-154: the key half of `loop()`, `for (int i = 0; i < 4; ++i)`. -/
def capacitiveKey (s : State) (inp : Input) : Option (State × List Effect) :=
  match scanKeys inp.keys 4 0 s.arrayIndex with
  | none => none
  | some (a, es) => some ({ s with arrayIndex := a }, es)

/-- One pass of `loop()` (lines 65-155). -/
def loop (s : State) (inp : Input) : Option (State × List Effect) :=
  match metalDetector s inp with
  | none => none
  | some t => capacitiveKey t inp

/-- Successive passes of `loop()`, one per input, collecting the effects. -/
def run (s : State) : List Input → Option (State × List Effect)
  | [] => some (s, [])
  | inp :: rest =>
    match loop s inp with
    | none => none
    | some (t, es) =>
      match run t rest with
      | none => none
      | some (u, fs) => some (u, es ++ fs)

/-! ## Observations used by the statements -/

/-- Number of unlock actions in a list of effects: how often the LED is
written high. -/
def unlockCount (es : List Effect) : Nat :=
  es.count (Effect.ledWrite true)

/-- Feed key events to the matcher one at a time, starting at `arrayIndex`;
returns the final cursor and, for each event, the effects it produced. -/
def feed (arrayIndex : Nat) : List Int → Option (Nat × List (List Effect))
  | [] => some (arrayIndex, [])
  | k :: ks =>
    match onKey arrayIndex k with
    | none => none
    | some r =>
      match feed r.arrayIndex ks with
      | none => none
      | some (a, ess) => some (a, r.effects :: ess)

/-- The target sequence entered `n` times in a row. -/
def repeated : Nat → List Int
  | 0 => []
  | n + 1 => initialArray ++ repeated n

/-- Unlock actions expected per event when the target is entered `n` times:
none at the first four events of each pass, one at the fifth. -/
def expectedUnlocks : Nat → List Nat
  | 0 => []
  | n + 1 => [0, 0, 0, 0, 1] ++ expectedUnlocks n

/-- Every pass of the run that resolves a window (takes the `else` branch of
line 72) sees an average below 8900. -/
def allResolveLow (s : State) : List Input → Bool
  | [] => true
  | inp :: rest =>
    (decide (s.avg_count < 20) ||
      (match average s with
        | none => false
        | some frequency => decide (frequency < 8900))) &&
    (match loop s inp with
      | none => false
      | some (t, _) => allResolveLow t rest)

/-- A reading that line 81 throws out. -/
def outOfBand (freq : Int) : Prop := freq ≤ 8000 ∨ 9500 ≤ freq

/-- A reading that line 81 accepts. -/
def inBand (freq : Int) : Prop := 8000 < freq ∧ freq < 9500

instance (freq : Int) : Decidable (outOfBand freq) := by
  unfold outOfBand
  infer_instance

instance (freq : Int) : Decidable (inBand freq) := by
  unfold inBand
  infer_instance

/-- Sum of the readings of a list of passes. -/
def freqSum (ins : List Input) : Nat :=
  (ins.map (fun inp => inp.freq.toNat)).sum

/-- The invariant of the globals between two passes of `loop()`. -/
def Inv (s : State) : Prop :=
  0 ≤ s.avg_count ∧ s.avg_count ≤ 20 ∧ s.arrayIndex < 5 ∧
  8001 * s.avg_count ≤ (s.sum_freq : Int) ∧ (s.sum_freq : Int) ≤ 9499 * s.avg_count

instance (s : State) : Decidable (Inv s) := by
  unfold Inv
  infer_instance

/-- Key readings of a pass in which key `k` alone is above threshold. -/
def onlyKey (k : Nat) : Nat → Bool :=
  fun i => decide (i = k)

/-- A pass of `loop()` in which key `k` alone is above threshold (and the
detector reads an out-of-band frequency). -/
def press (k : Nat) : Input :=
  { freq := 0, millisArm := 0, millisCheck := 0, keys := onlyKey k }

/-- The keys of a pass that read above threshold, in ascending index order. -/
def activeKeys (keys : Nat → Bool) : List Int :=
  ((List.range 4).filter (fun i => keys i)).map (fun i => (i : Int))

/-- The level-driven output signal in the words of the specification:
asserted iff armed and more than 100 ms have elapsed since `armedSince`. -/
def outputSignalSpec (armed : Bool) (armedSince now : Nat) : Bool :=
  armed && decide ((now : Int) - (armedSince : Int) > 100)

/-- The clock readings of a list of passes, taken in program order after a
reading `last`, never decrease and stay below `2 ^ 32` (no wrap-around).  A
pass that does not arm the trigger does not call `millis()` at line 97; its
`millisArm` then stands for any time between the neighbouring readings. -/
def chronological (last : Nat) : List Input → Bool
  | [] => true
  | inp :: rest =>
    decide (last ≤ inp.millisArm) && decide (inp.millisArm ≤ inp.millisCheck) &&
    decide (inp.millisCheck < ULONG_RANGE) && chronological inp.millisCheck rest

/-- The three outcomes of the hysteresis of lines 93-106. -/
inductive Branch where
  /-- Line 93 holds: arm (or stay armed). -/
  | arm
  /-- Neither line 93 nor line 102 holds: nothing changes. -/
  | deadBand
  /-- Line 102 holds: disarm. -/
  | disarm
  deriving DecidableEq, Repr

/-- The branch of lines 93-106 taken for a value of `frequency`. -/
def branchOf (frequency : Nat) : Branch :=
  if frequency < 8900 then Branch.arm
  else if frequency > 9000 then Branch.disarm
  else Branch.deadBand

/-- The branch that the exact rational average `sum / 20` of a full window
selects under the same thresholds. -/
def exactBranch (sum : Nat) : Branch :=
  if (sum : ℚ) / 20 < 8900 then Branch.arm
  else if (sum : ℚ) / 20 > 9000 then Branch.disarm
  else Branch.deadBand

/-- A pass that only reads the frequency `f` (no key pressed, clock at 0). -/
def reading (f : Int) : Input :=
  { freq := f, millisArm := 0, millisCheck := 0, keys := fun _ => false }

/-- A full window: 20 integral readings, each accepted by line 81. -/
def acceptedWindow (w : List Int) : Prop :=
  w.length = 20 ∧ ∀ f ∈ w, 8001 ≤ f ∧ f ≤ 9499

/-- Sum of the readings of a window. -/
def windowSum (w : List Int) : Nat :=
  (w.map Int.toNat).sum

/-- Iterate the output check of lines 115-118 `n` times at the same clock
reading. -/
def repeatCheck (now : Nat) : Nat → State → State
  | 0, s => s
  | n + 1, s => repeatCheck now n (outputCheck s now)

/-- No pass of the run resolves a window: each starts with `avg_count < 20`. -/
def noResolution (s : State) : List Input → Bool
  | [] => true
  | inp :: rest =>
    decide (s.avg_count < 20) &&
    (match loop s inp with
      | none => false
      | some (t, _) => noResolution t rest)

/-- The four key readings of a pass, `keys[0]` to `keys[3]`. -/
def keyReadings (inp : Input) : List Bool :=
  (List.range 4).map inp.keys

/-- The frequency and clock readings of a pass. -/
def detectorReadings (inp : Input) : Int × Nat × Nat :=
  (inp.freq, inp.millisArm, inp.millisCheck)

/-- The variables of the metal detector and the level of its pin. -/
def monitorOf (s : State) : Nat × Bool × Int × Nat × Bool :=
  (s.startTriggerMillis, s.trigger, s.avg_count, s.sum_freq, s.triggerPin)

/-- Key readings given by four booleans, one per key. -/
def keysOf (b0 b1 b2 b3 : Bool) : Nat → Bool
  | 0 => b0
  | 1 => b1
  | 2 => b2
  | 3 => b3
  | _ => false

/-- The last clock reading of a list of passes (`last` if there is none). -/
def lastCheck (last : Nat) : List Input → Nat
  | [] => last
  | inp :: rest => lastCheck inp.millisCheck rest

/-- Relation between the latched pin and the trigger at clock reading `last`:
a high pin means the trigger is armed and its debounce had elapsed by `last`,
and an armed trigger was armed no later than `last`. -/
def latched (s : State) (last : Nat) : Prop :=
  (s.triggerPin = true → s.trigger = true ∧ s.startTriggerMillis + 100 < last) ∧
  (s.trigger = true → s.startTriggerMillis ≤ last) ∧
  last < ULONG_RANGE

/-! ## The sequence matcher -/

theorem unlockCount_toneEffects (k : Int) : unlockCount (toneEffects k) = 0 := by
  simp [unlockCount, toneEffects]

theorem unlockCount_unlock (k : Int) :
    unlockCount (toneEffects k ++ unlockAction) = 1 := by
  simp [unlockCount, toneEffects, unlockAction]

theorem onKey_none_of_ge (p : Nat) (k : Int) (hp : 5 ≤ p) : onKey p k = none := by
  have : initialArray[p]? = none := by
    rw [List.getElem?_eq_none_iff]
    simpa [initialArray] using hp
  simp [onKey, this]

/-- A pass in which one key `k < 4` alone is active is one matcher transition
on `k`. -/
theorem scanKeys_onlyKey (k p : Nat) (hk : k < 4) :
    scanKeys (onlyKey k) 4 0 p =
      (onKey p (k : Int)).map (fun r => (r.arrayIndex, r.effects)) := by
  have key : ∀ o : Option KeyResult,
      (match o with
        | none => none
        | some r =>
          if r.brk then some (r.arrayIndex, r.effects)
          else some (r.arrayIndex, r.effects ++ [])) =
      o.map (fun r => (r.arrayIndex, r.effects)) := by
    intro o
    cases o with
    | none => rfl
    | some r => cases hb : r.brk <;> simp
  interval_cases k <;> simpa [scanKeys, onlyKey] using key _


theorem feed_append (p : Nat) (ks ls : List Int) (q : Nat) (ess : List (List Effect))
    (h : feed p ks = some (q, ess)) :
    feed p (ks ++ ls) =
      match feed q ls with
      | none => none
      | some (a, fss) => some (a, ess ++ fss) := by
  induction ks generalizing p q ess with
  | nil =>
    simp only [feed, Option.some.injEq, Prod.mk.injEq] at h
    obtain ⟨rfl, rfl⟩ := h
    cases hf : feed p ls with
    | none => simp [hf]
    | some r => simp [hf]
  | cons k ks ih =>
    rw [feed] at h
    rw [List.cons_append, feed]
    cases hk : onKey p k with
    | none => simp [hk] at h
    | some r =>
      simp only [hk] at h ⊢
      cases hr : feed r.arrayIndex ks with
      | none => simp [hr] at h
      | some w =>
        obtain ⟨a, fss⟩ := w
        simp only [hr, Option.some.injEq, Prod.mk.injEq] at h
        obtain ⟨rfl, rfl⟩ := h
        rw [ih r.arrayIndex a fss hr]
        cases hf : feed a ls with
        | none => rfl
        | some w2 => rfl

theorem feed_target_once :
    feed 0 initialArray =
      some (0, [toneEffects 0, toneEffects 1, toneEffects 2, toneEffects 3,
                toneEffects 0 ++ unlockAction]) := by
  decide

theorem feed_repeated (n : Nat) :
    ∃ ess, feed 0 (repeated n) = some (0, ess) ∧
      ess.map unlockCount = expectedUnlocks n := by
  induction n with
  | zero => exact ⟨[], rfl, rfl⟩
  | succ n ih =>
    obtain ⟨ess, h1, h2⟩ := ih
    refine ⟨[toneEffects 0, toneEffects 1, toneEffects 2, toneEffects 3,
                toneEffects 0 ++ unlockAction] ++ ess, ?_, ?_⟩
    · rw [repeated, feed_append 0 initialArray (repeated n) 0 _ feed_target_once, h1]
    · rw [List.map_append, h2, expectedUnlocks]
      rfl

theorem expectedUnlocks_length (n : Nat) : (expectedUnlocks n).length = 5 * n := by
  induction n with
  | zero => rfl
  | succ n ih => simp [expectedUnlocks, ih]; omega

theorem expectedUnlocks_sum (n : Nat) : (expectedUnlocks n).sum = n := by
  induction n with
  | zero => rfl
  | succ n ih => simp [expectedUnlocks, ih]; omega

theorem expectedUnlocks_get (n j : Nat) (hj : j < 5 * n) :
    (expectedUnlocks n)[j]? = some (if (j + 1) % 5 = 0 then 1 else 0) := by
  induction n generalizing j with
  | zero => omega
  | succ n ih =>
    rw [expectedUnlocks]
    by_cases h5 : j < 5
    · interval_cases j <;> simp
    · obtain ⟨i, rfl⟩ : ∃ i, j = 5 + i := ⟨j - 5, by omega⟩
      have hi : i < 5 * n := by omega
      have : ([0, 0, 0, 0, 1] ++ expectedUnlocks n)[5 + i]? = (expectedUnlocks n)[i]? := by
        rw [List.getElem?_append_right (by simp)]
        simp
      rw [this, ih i hi]
      have : (5 + i + 1) % 5 = (i + 1) % 5 := by omega
      rw [this]


/-! ## Frame and totality lemmas -/

theorem usub_add (t d : Nat) (hd : d < ULONG_RANGE) : usub (t + d) t = d := by
  unfold usub ULONG_RANGE at *
  omega

theorem usub_of_le (a b : Nat) (hab : b ≤ a) (ha : a < ULONG_RANGE) :
    usub a b = a - b := by
  unfold usub ULONG_RANGE at *
  omega

theorem sample_outOfBand (s : State) (f : Int) (h : outOfBand f) : sample s f = s := by
  unfold outOfBand at h
  unfold sample
  rw [if_neg]
  omega

theorem sample_inBand (s : State) (f : Int) (h : inBand f) :
    sample s f = { s with sum_freq := (s.sum_freq + f.toNat) % ULONG_RANGE,
                          avg_count := s.avg_count + 1 } := by
  unfold inBand at h
  unfold sample
  rw [if_pos]
  omega

theorem sample_frame (s : State) (f : Int) :
    (sample s f).trigger = s.trigger ∧
    (sample s f).startTriggerMillis = s.startTriggerMillis ∧
    (sample s f).triggerPin = s.triggerPin ∧
    (sample s f).arrayIndex = s.arrayIndex := by
  unfold sample
  split <;> simp

theorem outputCheck_frame (s : State) (now : Nat) :
    (outputCheck s now).trigger = s.trigger ∧
    (outputCheck s now).startTriggerMillis = s.startTriggerMillis ∧
    (outputCheck s now).avg_count = s.avg_count ∧
    (outputCheck s now).sum_freq = s.sum_freq ∧
    (outputCheck s now).arrayIndex = s.arrayIndex := by
  unfold outputCheck
  split <;> simp

theorem outputCheck_pin (s : State) (now : Nat) :
    (outputCheck s now).triggerPin = (s.triggerPin || outputCondition s now) := by
  unfold outputCheck
  cases h : outputCondition s now <;> simp

theorem hysteresis_frame (s : State) (frequency now : Nat) :
    (hysteresis s frequency now).avg_count = s.avg_count ∧
    (hysteresis s frequency now).sum_freq = s.sum_freq ∧
    (hysteresis s frequency now).arrayIndex = s.arrayIndex := by
  unfold hysteresis
  split_ifs <;> simp

theorem average_of_count (s : State) (h0 : 0 < s.avg_count)
    (h1 : s.avg_count < ULONG_RANGE) :
    average s = some (s.sum_freq / s.avg_count.toNat) := by
  have hmod : s.avg_count % (ULONG_RANGE : Int) = s.avg_count :=
    Int.emod_eq_of_lt (le_of_lt h0) h1
  unfold average
  rw [hmod, if_neg]
  omega

theorem metalDetector_sampling (s : State) (inp : Input) (h : s.avg_count < 20) :
    metalDetector s inp = some (outputCheck (sample s inp.freq) inp.millisCheck) := by
  simp [metalDetector, h]

theorem metalDetector_resolving (s : State) (inp : Input) (h : ¬ s.avg_count < 20)
    (frequency : Nat) (ha : average s = some frequency) :
    metalDetector s inp =
      some (outputCheck
        { hysteresis s frequency inp.millisArm with sum_freq := 0, avg_count := 0 }
        inp.millisCheck) := by
  simp [metalDetector, h, resolve, ha]

theorem metalDetector_arrayIndex (s t : State) (inp : Input)
    (h : metalDetector s inp = some t) : t.arrayIndex = s.arrayIndex := by
  by_cases hc : s.avg_count < 20
  · rw [metalDetector_sampling s inp hc] at h
    simp only [Option.some.injEq] at h
    subst h
    rw [(outputCheck_frame _ _).2.2.2.2, (sample_frame _ _).2.2.2]
  · cases ha : average s with
    | none => simp [metalDetector, hc, resolve, ha] at h
    | some frequency =>
      rw [metalDetector_resolving s inp hc frequency ha] at h
      simp only [Option.some.injEq] at h
      subst h
      rw [(outputCheck_frame _ _).2.2.2.2]
      exact (hysteresis_frame s frequency inp.millisArm).2.2

theorem onKey_lt (p : Nat) (k : Int) (hp : p < 5) :
    ∃ r, onKey p k = some r ∧ r.arrayIndex < 5 := by
  interval_cases p <;> simp only [onKey, initialArray, SEQUENCE_SIZE] <;> simp <;>
    split_ifs <;> simp

theorem scanKeys_lt (keys : Nat → Bool) (n i p : Nat) (hp : p < 5) :
    ∃ a es, scanKeys keys n i p = some (a, es) ∧ a < 5 := by
  induction n generalizing i p with
  | zero => exact ⟨p, [], rfl, hp⟩
  | succ n ih =>
    rw [scanKeys]
    by_cases hk : keys i = true
    · obtain ⟨r, hr, hlt⟩ := onKey_lt p (i : Int) hp
      rw [if_pos hk, hr]
      by_cases hb : r.brk = true
      · exact ⟨r.arrayIndex, r.effects, by simp [hb], hlt⟩
      · obtain ⟨a, es, h1, h2⟩ := ih (i + 1) r.arrayIndex hlt
        exact ⟨a, r.effects ++ es, by simp [hb, h1], h2⟩
    · rw [if_neg hk]
      exact ih (i + 1) p hp

theorem capacitiveKey_frame (s t : State) (es : List Effect) (inp : Input)
    (h : capacitiveKey s inp = some (t, es)) :
    t = { s with arrayIndex := t.arrayIndex } := by
  unfold capacitiveKey at h
  cases hs : scanKeys inp.keys 4 0 s.arrayIndex with
  | none => simp [hs] at h
  | some w =>
    obtain ⟨a, fs⟩ := w
    simp only [hs, Option.some.injEq, Prod.mk.injEq] at h
    obtain ⟨rfl, _⟩ := h
    rfl

theorem capacitiveKey_total (s : State) (inp : Input) (hp : s.arrayIndex < 5) :
    ∃ t es, capacitiveKey s inp = some (t, es) ∧ t.arrayIndex < 5 := by
  obtain ⟨a, es, h1, h2⟩ := scanKeys_lt inp.keys 4 0 s.arrayIndex hp
  exact ⟨{ s with arrayIndex := a }, es, by simp [capacitiveKey, h1], h2⟩

theorem loop_eq (s t : State) (es : List Effect) (inp : Input)
    (h : loop s inp = some (t, es)) :
    ∃ m, metalDetector s inp = some m ∧ t = { m with arrayIndex := t.arrayIndex } := by
  unfold loop at h
  cases hm : metalDetector s inp with
  | none => simp [hm] at h
  | some m =>
    rw [hm] at h
    exact ⟨m, rfl, capacitiveKey_frame m t es inp h⟩

theorem loop_total (s : State) (inp : Input) (m : State)
    (hm : metalDetector s inp = some m) (hidx : s.arrayIndex < 5) :
    ∃ t es, loop s inp = some (t, es) ∧ t = { m with arrayIndex := t.arrayIndex } ∧
      t.arrayIndex < 5 := by
  have hmi : m.arrayIndex < 5 := by
    rw [metalDetector_arrayIndex s m inp hm]
    exact hidx
  obtain ⟨t, es, ht, hlt⟩ := capacitiveKey_total m inp hmi
  exact ⟨t, es, by simp [loop, hm, ht], capacitiveKey_frame m t es inp ht, hlt⟩

/-! ## The invariant between passes -/

theorem inv_setup : Inv setup := by
  simp [Inv, setup]

theorem metalDetector_inv (s : State) (inp : Input) (h : Inv s) :
    ∃ t, metalDetector s inp = some t ∧ Inv t := by
  obtain ⟨h0, h20, hidx, hlo, hhi⟩ := h
  by_cases hc : s.avg_count < 20
  · refine ⟨_, metalDetector_sampling s inp hc, ?_⟩
    obtain ⟨-, -, hcnt, hsum, hai⟩ := outputCheck_frame (sample s inp.freq) inp.millisCheck
    unfold Inv
    rw [hcnt, hsum, hai]
    by_cases hb : inBand inp.freq
    · rw [sample_inBand s inp.freq hb]
      unfold inBand at hb
      unfold ULONG_RANGE
      simp only
      refine ⟨by omega, by omega, hidx, ?_, ?_⟩ <;> omega
    · have hob : outOfBand inp.freq := by
        unfold inBand at hb
        unfold outOfBand
        omega
      rw [sample_outOfBand s inp.freq hob]
      exact ⟨h0, h20, hidx, hlo, hhi⟩
  · have ha := average_of_count s (by omega) (by unfold ULONG_RANGE; omega)
    refine ⟨_, metalDetector_resolving s inp hc _ ha, ?_⟩
    obtain ⟨-, -, hcnt, hsum, hai⟩ := outputCheck_frame
      { hysteresis s (s.sum_freq / s.avg_count.toNat) inp.millisArm with
        sum_freq := 0, avg_count := 0 } inp.millisCheck
    unfold Inv
    rw [hcnt, hsum, hai]
    simp only
    refine ⟨by omega, by omega, ?_, by omega, by omega⟩
    rw [(hysteresis_frame _ _ _).2.2]
    exact hidx

theorem loop_inv (s : State) (inp : Input) (h : Inv s) :
    ∃ t es, loop s inp = some (t, es) ∧ Inv t := by
  obtain ⟨m, hm, hinv⟩ := metalDetector_inv s inp h
  obtain ⟨t, es, ht, hlt⟩ := capacitiveKey_total m inp hinv.2.2.1
  refine ⟨t, es, by simp [loop, hm, ht], ?_⟩
  have hf := capacitiveKey_frame m t es inp ht
  obtain ⟨h0, h20, -, hlo, hhi⟩ := hinv
  rw [hf]
  exact ⟨h0, h20, hlt, hlo, hhi⟩

theorem run_inv (ins : List Input) (s : State) (h : Inv s) :
    ∃ t es, run s ins = some (t, es) ∧ Inv t := by
  induction ins generalizing s with
  | nil => exact ⟨s, [], rfl, h⟩
  | cons inp rest ih =>
    obtain ⟨m, es, hm, hinv⟩ := loop_inv s inp h
    obtain ⟨t, fs, ht, hinv2⟩ := ih m hinv
    exact ⟨t, es ++ fs, by simp [run, hm, ht], hinv2⟩

/-! ## Runs of passes -/

theorem run_append (s t u : State) (a b : List Input) (es fs : List Effect)
    (h1 : run s a = some (t, es)) (h2 : run t b = some (u, fs)) :
    run s (a ++ b) = some (u, es ++ fs) := by
  induction a generalizing s es with
  | nil =>
    simp only [run, Option.some.injEq, Prod.mk.injEq] at h1
    obtain ⟨rfl, rfl⟩ := h1
    simpa using h2
  | cons inp rest ih =>
    rw [run] at h1
    rw [List.cons_append, run]
    cases hl : loop s inp with
    | none => simp [hl] at h1
    | some w =>
      obtain ⟨m, gs⟩ := w
      simp only [hl] at h1 ⊢
      cases hr : run m rest with
      | none => simp [hr] at h1
      | some w2 =>
        obtain ⟨t2, hs⟩ := w2
        simp only [hr, Option.some.injEq, Prod.mk.injEq] at h1
        obtain ⟨rfl, rfl⟩ := h1
        rw [ih m hs hr]
        simp

theorem loop_sampling (s : State) (inp : Input) (hc : s.avg_count < 20)
    (hidx : s.arrayIndex < 5) :
    ∃ t es, loop s inp = some (t, es) ∧ t.arrayIndex < 5 ∧
      t.avg_count = (sample s inp.freq).avg_count ∧
      t.sum_freq = (sample s inp.freq).sum_freq := by
  obtain ⟨t, es, ht, hf, hlt⟩ := loop_total s inp _ (metalDetector_sampling s inp hc) hidx
  refine ⟨t, es, ht, hlt, ?_, ?_⟩
  · rw [hf]
    exact (outputCheck_frame _ _).2.2.1
  · rw [hf]
    exact (outputCheck_frame _ _).2.2.2.1

theorem run_inBand (ins : List Input) (s : State) (hinv : Inv s)
    (hlen : s.avg_count + ins.length ≤ 20) (hin : ∀ i ∈ ins, inBand i.freq) :
    ∃ t es, run s ins = some (t, es) ∧ Inv t ∧
      t.avg_count = s.avg_count + ins.length ∧
      t.sum_freq = s.sum_freq + freqSum ins := by
  induction ins generalizing s with
  | nil => exact ⟨s, [], rfl, hinv, by simp, by simp [freqSum]⟩
  | cons inp rest ih =>
    have hb : inBand inp.freq := hin inp (List.mem_cons_self _ _)
    have hlen2 : s.avg_count + (rest.length + 1 : Nat) ≤ 20 := by simpa using hlen
    obtain ⟨m, es, hm, hminv⟩ := loop_inv s inp hinv
    obtain ⟨m2, es2, hm2, -, hcnt, hsum⟩ :=
      loop_sampling s inp (by omega) hinv.2.2.1
    rw [hm] at hm2
    simp only [Option.some.injEq, Prod.mk.injEq] at hm2
    obtain ⟨rfl, rfl⟩ := hm2
    rw [sample_inBand s inp.freq hb] at hcnt hsum
    simp only at hcnt hsum
    have hnowrap : (s.sum_freq + inp.freq.toNat) % ULONG_RANGE =
        s.sum_freq + inp.freq.toNat := by
      obtain ⟨h0, h20, -, -, hhi⟩ := hinv
      unfold inBand at hb
      unfold ULONG_RANGE
      omega
    rw [hnowrap] at hsum
    obtain ⟨t, fs, ht, htinv, htc, hts⟩ := ih m hminv (by rw [hcnt]; omega)
      (fun i hi => hin i (List.mem_cons_of_mem _ hi))
    refine ⟨t, es ++ fs, by simp [run, hm, ht], htinv, ?_, ?_⟩
    · rw [htc, hcnt]
      simp only [List.length_cons]
      push_cast
      ring
    · rw [hts, hsum]
      simp only [freqSum, List.map_cons, List.sum_cons]
      ring

theorem run_outOfBand (ins : List Input) (s : State) (hinv : Inv s)
    (hc : s.avg_count < 20) (hout : ∀ i ∈ ins, outOfBand i.freq) :
    ∃ t es, run s ins = some (t, es) ∧
      t.avg_count = s.avg_count ∧ t.sum_freq = s.sum_freq := by
  induction ins generalizing s with
  | nil => exact ⟨s, [], rfl, rfl, rfl⟩
  | cons inp rest ih =>
    have hb : outOfBand inp.freq := hout inp (List.mem_cons_self _ _)
    obtain ⟨m, es, hm, hminv⟩ := loop_inv s inp hinv
    obtain ⟨m2, es2, hm2, -, hcnt, hsum⟩ := loop_sampling s inp hc hinv.2.2.1
    rw [hm] at hm2
    simp only [Option.some.injEq, Prod.mk.injEq] at hm2
    obtain ⟨rfl, rfl⟩ := hm2
    rw [sample_outOfBand s inp.freq hb] at hcnt hsum
    obtain ⟨t, fs, ht, htc, hts⟩ := ih m hminv (by rw [hcnt]; exact hc)
      (fun i hi => hout i (List.mem_cons_of_mem _ hi))
    exact ⟨t, es ++ fs, by simp [run, hm, ht], by rw [htc, hcnt], by rw [hts, hsum]⟩

/-! ## Runs whose resolutions all see a low average -/

theorem allResolveLow_cons (s : State) (inp : Input) (rest : List Input) :
    allResolveLow s (inp :: rest) = true ↔
      (s.avg_count < 20 ∨ ∃ f, average s = some f ∧ f < 8900) ∧
      ∃ t es, loop s inp = some (t, es) ∧ allResolveLow t rest = true := by
  rw [allResolveLow]
  cases ha : average s <;> rcases hl : loop s inp with _ | ⟨t, es⟩ <;> simp

theorem allResolveLow_take (ins : List Input) (s : State) (k : Nat)
    (h : allResolveLow s ins = true) : allResolveLow s (ins.take k) = true := by
  induction ins generalizing s k with
  | nil => simpa using h
  | cons inp rest ih =>
    cases k with
    | zero => rfl
    | succ k =>
      rw [List.take_succ_cons]
      rw [allResolveLow_cons] at h ⊢
      obtain ⟨h1, t, es, ht, hrest⟩ := h
      exact ⟨h1, t, es, ht, ih t k hrest⟩

theorem metalDetector_low_armed (s m : State) (inp : Input) (harmed : s.trigger = true)
    (hlow : s.avg_count < 20 ∨ ∃ f, average s = some f ∧ f < 8900)
    (hm : metalDetector s inp = some m) :
    m.trigger = true ∧ m.startTriggerMillis = s.startTriggerMillis := by
  by_cases hc : s.avg_count < 20
  · rw [metalDetector_sampling s inp hc] at hm
    simp only [Option.some.injEq] at hm
    subst hm
    rw [(outputCheck_frame _ _).1, (outputCheck_frame _ _).2.1,
      (sample_frame _ _).1, (sample_frame _ _).2.1]
    exact ⟨harmed, rfl⟩
  · obtain ⟨f, hf, hlt⟩ := hlow.resolve_left hc
    rw [metalDetector_resolving s inp hc f hf] at hm
    simp only [Option.some.injEq] at hm
    subst hm
    rw [(outputCheck_frame _ _).1, (outputCheck_frame _ _).2.1]
    simp [hysteresis, hlt, harmed]

theorem metalDetector_low_unarmed (s m : State) (inp : Input) (f : Nat)
    (hoff : s.trigger = false) (hc : ¬ s.avg_count < 20)
    (hf : average s = some f) (hlt : f < 8900)
    (hm : metalDetector s inp = some m) :
    m.trigger = true ∧ m.startTriggerMillis = inp.millisArm := by
  rw [metalDetector_resolving s inp hc f hf] at hm
  simp only [Option.some.injEq] at hm
  subst hm
  rw [(outputCheck_frame _ _).1, (outputCheck_frame _ _).2.1]
  simp [hysteresis, hlt, hoff]

theorem loop_trigger (s t : State) (es : List Effect) (inp : Input)
    (h : loop s inp = some (t, es)) :
    ∃ m, metalDetector s inp = some m ∧ t.trigger = m.trigger ∧
      t.startTriggerMillis = m.startTriggerMillis := by
  obtain ⟨m, hm, hf⟩ := loop_eq s t es inp h
  refine ⟨m, hm, ?_, ?_⟩
  · rw [hf]
  · rw [hf]

theorem run_low_armed (ins : List Input) (s : State) (harmed : s.trigger = true)
    (hlow : allResolveLow s ins = true) :
    ∃ t es, run s ins = some (t, es) ∧ t.trigger = true ∧
      t.startTriggerMillis = s.startTriggerMillis := by
  induction ins generalizing s with
  | nil => exact ⟨s, [], rfl, harmed, rfl⟩
  | cons inp rest ih =>
    rw [allResolveLow_cons] at hlow
    obtain ⟨h1, t, es, ht, hrest⟩ := hlow
    obtain ⟨m, hm, htr, hst⟩ := loop_trigger s t es inp ht
    obtain ⟨hmt, hms⟩ := metalDetector_low_armed s m inp harmed h1 hm
    obtain ⟨u, fs, hu, hut, hus⟩ := ih t (by rw [htr, hmt]) hrest
    exact ⟨u, es ++ fs, by simp [run, ht, hu], hut, by rw [hus, hst, hms]⟩

/-! ## Claims about the sequence matcher -/

/-- C1: with target `[0,1,2,3,0]` and the cursor at 0, feeding the key events
0,1,2,3,0 succeeds, emits no unlock action at the first four events and one
at the fifth (one in total), and leaves `arrayIndex` at 0.  The same holds
for five passes of `loop()` from the initial state in which these keys are
pressed one per pass: no unlock in the first four passes, one in all five. -/
theorem target_sequence_unlocks_once :
    initialArray = [0, 1, 2, 3, 0] ∧
    (∃ ess, feed 0 [0, 1, 2, 3, 0] = some (0, ess) ∧
      ess.map unlockCount = [0, 0, 0, 0, 1] ∧
      (ess.map unlockCount).sum = 1 ∧
      ess[4]? = some (toneEffects 0 ++ unlockAction)) ∧
    (∃ t es, run setup ([0, 1, 2, 3].map press) = some (t, es) ∧
      t.arrayIndex = 4 ∧ unlockCount es = 0) ∧
    (∃ t es, run setup ([0, 1, 2, 3, 0].map press) = some (t, es) ∧
      t.arrayIndex = 0 ∧ unlockCount es = 1) := by
  refine ⟨rfl, ⟨_, feed_target_once, ?_, ?_, ?_⟩, ⟨_, _, rfl, ?_, ?_⟩,
    ⟨_, _, rfl, ?_, ?_⟩⟩ <;> decide

/-- C2: at a cursor `p < 5`, a key `k` different from `initialArray[p]` emits
no unlock action and sets the cursor to 0.  In particular feeding 0,1,9,3,0
from 0 emits no unlock action at any of the five events, and the cursor is 0
right after the third event. -/
theorem mismatch_resets_cursor (p : Nat) (k : Int) (hp : p < 5)
    (hk : initialArray[p]? ≠ some k) :
    (onKey p k = some ⟨0, toneEffects k, false⟩ ∧
      unlockCount (toneEffects k) = 0) ∧
    (∃ ess, feed 0 [0, 1, 9] = some (0, ess) ∧
      ess.map unlockCount = [0, 0, 0]) ∧
    (∃ q ess, feed 0 [0, 1, 9, 3, 0] = some (q, ess) ∧
      ess.map unlockCount = [0, 0, 0, 0, 0]) := by
  refine ⟨⟨?_, unlockCount_toneEffects k⟩, ⟨_, rfl, by decide⟩,
    ⟨_, _, rfl, by decide⟩⟩
  interval_cases p <;> simp [initialArray] at hk <;>
    simp [onKey, initialArray, Ne.symm hk]

theorem mismatch_resets_cursor_witness :
    (2 < 5 ∧ initialArray[2]? ≠ some (9 : Int)) ∧
    ((onKey 2 9 = some ⟨0, toneEffects 9, false⟩ ∧
      unlockCount (toneEffects 9) = 0) ∧
    (∃ ess, feed 0 [0, 1, 9] = some (0, ess) ∧
      ess.map unlockCount = [0, 0, 0]) ∧
    (∃ q ess, feed 0 [0, 1, 9, 3, 0] = some (q, ess) ∧
      ess.map unlockCount = [0, 0, 0, 0, 0])) :=
  ⟨⟨by decide, by decide⟩, mismatch_resets_cursor 2 9 (by decide) (by decide)⟩

/-- C7: for every `n`, feeding the target sequence `n` times in a row from
cursor 0 succeeds, ends at cursor 0 and emits exactly `n` unlock actions: one
at each event whose (1-based) index is a multiple of five and none at any
other event.  For `n = 2` the ten events emit `0,0,0,0,1,0,0,0,0,1`. -/
theorem repeated_sequence_unlocks_each_time (n : Nat) :
    (∃ ess, feed 0 (repeated n) = some (0, ess) ∧
      ess.length = 5 * n ∧
      (ess.map unlockCount).sum = n ∧
      ∀ j, j < 5 * n →
        (ess.map unlockCount)[j]? = some (if (j + 1) % 5 = 0 then 1 else 0)) ∧
    (∃ ess, feed 0 [0, 1, 2, 3, 0, 0, 1, 2, 3, 0] = some (0, ess) ∧
      ess.map unlockCount = [0, 0, 0, 0, 1, 0, 0, 0, 0, 1]) := by
  constructor
  · obtain ⟨ess, h1, h2⟩ := feed_repeated n
    refine ⟨ess, h1, ?_, ?_, ?_⟩
    · have := congrArg List.length h2
      simpa [expectedUnlocks_length] using this
    · rw [h2, expectedUnlocks_sum]
    · intro j hj
      rw [h2, expectedUnlocks_get n j hj]
  · exact ⟨_, rfl, by decide⟩

/-- C10: at a cursor `p < 5` with the key `k = initialArray[p]`: if
`p + 1 < 5` the cursor becomes `p + 1` and no unlock action is emitted; if
`p + 1 = 5` the LED is held high for 10000 ms, the cursor becomes 0 and the
key loop is left.  A single transition emits an unlock action exactly when
the cursor is 4 and the key is `initialArray[4]`. -/
theorem match_advances_or_unlocks (p : Nat) (k : Int) (hp : p < 5)
    (hk : initialArray[p]? = some k) :
    (p + 1 < 5 →
      onKey p k = some ⟨p + 1, toneEffects k, false⟩ ∧
      unlockCount (toneEffects k) = 0) ∧
    (p + 1 = 5 →
      onKey p k = some ⟨0, toneEffects k ++
        [Effect.ledWrite true, Effect.delay 10000, Effect.ledWrite false], true⟩ ∧
      unlockCount (toneEffects k ++
        [Effect.ledWrite true, Effect.delay 10000, Effect.ledWrite false]) = 1) ∧
    (∀ q j, (∃ r, onKey q j = some r ∧ 0 < unlockCount r.effects) ↔
      (q = 4 ∧ initialArray[4]? = some j)) := by
  refine ⟨?_, ?_, ?_⟩
  · intro h
    refine ⟨?_, unlockCount_toneEffects k⟩
    interval_cases p <;> simp [initialArray] at hk <;> subst hk <;>
      first | omega | simp [onKey, initialArray, SEQUENCE_SIZE]
  · intro h
    refine ⟨?_, unlockCount_unlock k⟩
    obtain rfl : p = 4 := by omega
    simp [initialArray] at hk
    subst hk
    simp [onKey, initialArray, SEQUENCE_SIZE, unlockAction]
  · intro q j
    constructor
    · rintro ⟨r, hr, hpos⟩
      by_cases hq : q < 5
      · interval_cases q <;>
          · simp only [onKey, initialArray, SEQUENCE_SIZE] at hr
            simp at hr
            split_ifs at hr with hj <;>
              · simp only [Option.some.injEq] at hr
                subst hr
                simp_all [unlockCount, toneEffects, unlockAction, initialArray]
      · rw [onKey_none_of_ge q j (by omega)] at hr
        simp at hr
    · rintro ⟨rfl, hj⟩
      simp [initialArray] at hj
      subst hj
      exact ⟨⟨0, toneEffects 0 ++ unlockAction, true⟩, by decide, by decide⟩

theorem match_advances_or_unlocks_witness :
    (4 < 5 ∧ initialArray[4]? = some (0 : Int)) ∧
    ((4 + 1 < 5 →
      onKey 4 0 = some ⟨4 + 1, toneEffects 0, false⟩ ∧
      unlockCount (toneEffects 0) = 0) ∧
    (4 + 1 = 5 →
      onKey 4 0 = some ⟨0, toneEffects 0 ++
        [Effect.ledWrite true, Effect.delay 10000, Effect.ledWrite false], true⟩ ∧
      unlockCount (toneEffects 0 ++
        [Effect.ledWrite true, Effect.delay 10000, Effect.ledWrite false]) = 1) ∧
    (∀ q j, (∃ r, onKey q j = some r ∧ 0 < unlockCount r.effects) ↔
      (q = 4 ∧ initialArray[4]? = some j))) :=
  ⟨⟨by decide, by decide⟩, match_advances_or_unlocks 4 0 (by decide) (by decide)⟩

/-! ## Claims about the metal detector -/

/-- C3: start in an unarmed state in which a window is about to be resolved,
and take any run of passes in which every resolution sees an average below
8900.  After the first pass (the first resolution) and after every later
pass of the run, up to its end, `trigger` is set and `startTriggerMillis` is
the time read at that first resolution: later low-average resolutions do not
overwrite it. -/
theorem arming_records_first_resolution (s : State) (inp : Input) (rest : List Input)
    (k : Nat) (hoff : s.trigger = false) (hres : ¬ s.avg_count < 20)
    (hlow : allResolveLow s (inp :: rest) = true) :
    (∃ t es, run s ((inp :: rest).take (k + 1)) = some (t, es) ∧
      t.trigger = true ∧ t.startTriggerMillis = inp.millisArm) ∧
    (∃ t es, run s (inp :: rest) = some (t, es) ∧
      t.trigger = true ∧ t.startTriggerMillis = inp.millisArm) := by
  have key : ∀ ins : List Input, allResolveLow s (inp :: ins) = true →
      ∃ t es, run s (inp :: ins) = some (t, es) ∧
        t.trigger = true ∧ t.startTriggerMillis = inp.millisArm := by
    intro ins hins
    rw [allResolveLow_cons] at hins
    obtain ⟨h1, t, es, ht, hrest⟩ := hins
    obtain ⟨f, hf, hlt⟩ := h1.resolve_left hres
    obtain ⟨m, hm, htr, hst⟩ := loop_trigger s t es inp ht
    obtain ⟨hmt, hms⟩ := metalDetector_low_unarmed s m inp f hoff hres hf hlt hm
    obtain ⟨u, fs, hu, hut, hus⟩ := run_low_armed ins t (by rw [htr, hmt]) hrest
    exact ⟨u, es ++ fs, by simp [run, ht, hu], hut, by rw [hus, hst, hms]⟩
  refine ⟨?_, key rest hlow⟩
  rw [List.take_succ_cons]
  apply key
  have := allResolveLow_take (inp :: rest) s (k + 1) hlow
  rwa [List.take_succ_cons] at this

theorem arming_records_first_resolution_witness :
    ((⟨0, 0, false, 20, 170000, false⟩ : State).trigger = false ∧
      ¬ (⟨0, 0, false, 20, 170000, false⟩ : State).avg_count < 20 ∧
      allResolveLow ⟨0, 0, false, 20, 170000, false⟩
        (⟨8500, 1000, 1000, fun _ => false⟩ ::
          (List.replicate 20 ⟨8500, 2000, 2000, fun _ => false⟩ ++
            [⟨8500, 5000, 5000, fun _ => false⟩])) = true) ∧
    ∃ t es, run ⟨0, 0, false, 20, 170000, false⟩
        (⟨8500, 1000, 1000, fun _ => false⟩ ::
          (List.replicate 20 ⟨8500, 2000, 2000, fun _ => false⟩ ++
            [⟨8500, 5000, 5000, fun _ => false⟩])) = some (t, es) ∧
      t.trigger = true ∧ t.startTriggerMillis = 1000 :=
  ⟨⟨by decide, by decide, by decide⟩,
    (arming_records_first_resolution ⟨0, 0, false, 20, 170000, false⟩
      ⟨8500, 1000, 1000, fun _ => false⟩
      (List.replicate 20 ⟨8500, 2000, 2000, fun _ => false⟩ ++
        [⟨8500, 5000, 5000, fun _ => false⟩]) 21
      (by decide) (by decide) (by decide)).2⟩

/-- C4: the condition of line 115 holds iff `trigger` is set and the unsigned
difference `now - startTriggerMillis` exceeds 100 (strictly); when the clock
has not wrapped that difference is the elapsed time.  For a monitor armed at
`T` the condition is false at `T + 99` and `T + 100` and true at `T + 101`,
also when the 32-bit clock wraps in between, and the trigger pin is written
high only from `T + 101` on; when not armed it is false at every `now`. -/
theorem debounce_boundary (s : State) (T now : Nat) :
    (outputCondition s now = true ↔
      s.trigger = true ∧ 100 < usub now s.startTriggerMillis) ∧
    (s.startTriggerMillis ≤ now → now < ULONG_RANGE →
      usub now s.startTriggerMillis = now - s.startTriggerMillis) ∧
    outputCondition { s with trigger := true, startTriggerMillis := T } (T + 99) = false ∧
    outputCondition { s with trigger := true, startTriggerMillis := T } (T + 100) = false ∧
    outputCondition { s with trigger := true, startTriggerMillis := T } (T + 101) = true ∧
    outputCondition { s with trigger := true, startTriggerMillis := T }
      ((T + 101) % ULONG_RANGE) = true ∧
    (outputCheck { s with trigger := true, startTriggerMillis := T }
      (T + 100)).triggerPin = s.triggerPin ∧
    (outputCheck { s with trigger := true, startTriggerMillis := T }
      (T + 101)).triggerPin = true ∧
    outputCondition { s with trigger := false } now = false := by
  have h99 : usub (T + 99) T = 99 := usub_add T 99 (by decide)
  have h100 : usub (T + 100) T = 100 := usub_add T 100 (by decide)
  have h101 : usub (T + 101) T = 101 := usub_add T 101 (by decide)
  have h101w : usub ((T + 101) % ULONG_RANGE) T = 101 := by
    unfold usub ULONG_RANGE
    omega
  refine ⟨by simp [outputCondition], fun h1 h2 => usub_of_le _ _ h1 h2, ?_, ?_, ?_, ?_,
    ?_, ?_, ?_⟩
  · simp [outputCondition, h99]
  · simp [outputCondition, h100]
  · simp [outputCondition, h101]
  · simp [outputCondition, h101w]
  · simp [outputCheck_pin, outputCondition, h100]
  · simp [outputCheck_pin, outputCondition, h101]
  · simp [outputCondition]

/-- C6: a reading `f ≤ 8000` or `f ≥ 9500` leaves `avg_count` and `sum_freq`
(the whole state) unchanged; a reading with `8000 < f < 9500` taken while
`avg_count < 20` increments `avg_count` and adds `f` to the 32-bit
`sum_freq`, which is `sum_freq + f` whenever that fits in 32 bits.  Hence
after 19 accepted readings from the initial state, any number of rejected
readings leaves `avg_count` at 19 (and `sum_freq` at the sum of the 19), so
the window never becomes full. -/
theorem sample_acceptance (s : State) (inp : Input) (ins1 ins2 : List Input)
    (hlen : ins1.length = 19) (hin : ∀ i ∈ ins1, inBand i.freq)
    (hout : ∀ i ∈ ins2, outOfBand i.freq) :
    ((inp.freq ≤ 8000 ∨ 9500 ≤ inp.freq) →
      sample s inp.freq = s ∧
      (s.avg_count < 20 → ∃ t, metalDetector s inp = some t ∧
        t.avg_count = s.avg_count ∧ t.sum_freq = s.sum_freq)) ∧
    ((8000 < inp.freq ∧ inp.freq < 9500) → s.avg_count < 20 →
      ∃ t, metalDetector s inp = some t ∧
        t.avg_count = s.avg_count + 1 ∧
        ((t.sum_freq : Int) = ((s.sum_freq : Int) + inp.freq) % (ULONG_RANGE : Int)) ∧
        ((s.sum_freq : Int) + inp.freq < ULONG_RANGE →
          (t.sum_freq : Int) = (s.sum_freq : Int) + inp.freq)) ∧
    (∃ t es, run setup (ins1 ++ ins2) = some (t, es) ∧
      t.avg_count = 19 ∧ t.avg_count < 20 ∧ t.sum_freq = freqSum ins1) := by
  refine ⟨?_, ?_, ?_⟩
  · intro hob
    have hs := sample_outOfBand s inp.freq hob
    refine ⟨hs, fun hc => ⟨_, metalDetector_sampling s inp hc, ?_, ?_⟩⟩
    · rw [(outputCheck_frame _ _).2.2.1, hs]
    · rw [(outputCheck_frame _ _).2.2.2.1, hs]
  · intro hib hc
    have hs := sample_inBand s inp.freq hib
    have hsum : (outputCheck (sample s inp.freq) inp.millisCheck).sum_freq =
        (s.sum_freq + inp.freq.toNat) % ULONG_RANGE := by
      rw [(outputCheck_frame _ _).2.2.2.1, hs]
    refine ⟨_, metalDetector_sampling s inp hc, ?_, ?_, ?_⟩
    · rw [(outputCheck_frame _ _).2.2.1, hs]
    · rw [hsum]
      unfold ULONG_RANGE
      omega
    · intro hfit
      rw [hsum]
      unfold ULONG_RANGE at *
      omega
  · obtain ⟨m, es, hm, hminv, hmc, hms⟩ := run_inBand ins1 setup inv_setup
      (by rw [hlen]; decide) hin
    have hm19 : m.avg_count = 19 := by
      rw [hmc, hlen]
      rfl
    obtain ⟨t, fs, ht, htc, hts⟩ := run_outOfBand ins2 m hminv (by omega) hout
    refine ⟨t, es ++ fs, run_append setup m t ins1 ins2 es fs hm ht, ?_, ?_, ?_⟩
    · rw [htc, hm19]
    · rw [htc, hm19]
      decide
    · rw [hts, hms]
      simp [setup]

theorem sample_acceptance_witness :
    ((List.replicate 19 (⟨8500, 0, 0, fun _ => false⟩ : Input)).length = 19 ∧
      (∀ i ∈ List.replicate 19 (⟨8500, 0, 0, fun _ => false⟩ : Input), inBand i.freq) ∧
      (∀ i ∈ List.replicate 3 (⟨9600, 0, 0, fun _ => false⟩ : Input), outOfBand i.freq)) ∧
    ∃ t es, run setup (List.replicate 19 (⟨8500, 0, 0, fun _ => false⟩ : Input) ++
        List.replicate 3 (⟨9600, 0, 0, fun _ => false⟩ : Input)) = some (t, es) ∧
      t.avg_count = 19 ∧ t.avg_count < 20 ∧
      t.sum_freq = freqSum (List.replicate 19 (⟨8500, 0, 0, fun _ => false⟩ : Input)) :=
  ⟨⟨by simp, by simp [inBand], by simp [outOfBand]⟩,
    (sample_acceptance setup ⟨8500, 0, 0, fun _ => false⟩
      (List.replicate 19 ⟨8500, 0, 0, fun _ => false⟩)
      (List.replicate 3 ⟨9600, 0, 0, fun _ => false⟩)
      (by simp) (by simp [inBand]) (by simp [outOfBand])).2.2⟩

/-- C5: in any state (armed or not, whatever `startTriggerMillis` and the
current time are) a pass that resolves a window whose average is above 9000
clears `trigger` and writes the trigger pin low, and the pin is still low
and `trigger` still clear at the end of that pass of `loop()`. -/
theorem disarm_is_immediate (s : State) (inp : Input) (a : Nat)
    (hres : ¬ s.avg_count < 20) (havg : average s = some a) (hgt : 9000 < a)
    (hidx : s.arrayIndex < 5) :
    (∃ t, resolve s inp.millisArm = some t ∧ t.trigger = false ∧
      t.triggerPin = false) ∧
    (∃ t, metalDetector s inp = some t ∧ t.trigger = false ∧ t.triggerPin = false) ∧
    (∃ t es, loop s inp = some (t, es) ∧ t.trigger = false ∧ t.triggerPin = false) := by
  have hh : (hysteresis s a inp.millisArm).trigger = false ∧
      (hysteresis s a inp.millisArm).triggerPin = false := by
    unfold hysteresis
    rw [if_neg (by omega), if_pos hgt]
    simp
  have hm := metalDetector_resolving s inp hres a havg
  have hmt : (outputCheck { hysteresis s a inp.millisArm with sum_freq := 0, avg_count := 0 }
      inp.millisCheck).trigger = false := by
    rw [(outputCheck_frame _ _).1]
    exact hh.1
  have hmp : (outputCheck { hysteresis s a inp.millisArm with sum_freq := 0, avg_count := 0 }
      inp.millisCheck).triggerPin = false := by
    rw [outputCheck_pin]
    simp [outputCondition, hh.1, hh.2]
  refine ⟨⟨{ hysteresis s a inp.millisArm with sum_freq := 0, avg_count := 0 },
    by simp [resolve, havg], hh.1, hh.2⟩, ⟨_, hm, hmt, hmp⟩, ?_⟩
  obtain ⟨t, es, ht, hf, -⟩ := loop_total s inp _ hm hidx
  refine ⟨t, es, ht, ?_, ?_⟩
  · rw [hf]
    exact hmt
  · rw [hf]
    exact hmp

theorem disarm_is_immediate_witness :
    (¬ (⟨0, 5, true, 20, 181000, true⟩ : State).avg_count < 20 ∧
      average ⟨0, 5, true, 20, 181000, true⟩ = some 9050 ∧ 9000 < 9050 ∧
      (⟨0, 5, true, 20, 181000, true⟩ : State).arrayIndex < 5) ∧
    ∃ t es, loop ⟨0, 5, true, 20, 181000, true⟩ ⟨8500, 900000, 900000, fun _ => false⟩ =
      some (t, es) ∧ t.trigger = false ∧ t.triggerPin = false :=
  ⟨⟨by decide, by decide, by decide, by decide⟩,
    (disarm_is_immediate ⟨0, 5, true, 20, 181000, true⟩
      ⟨8500, 900000, 900000, fun _ => false⟩ 9050
      (by decide) (by decide) (by decide) (by decide)).2.2⟩

/-- C8: in any state, armed or not, resolving a window whose average lies in
the dead band `8900 ≤ average ≤ 9000` leaves `trigger`, `startTriggerMillis`
and the level of the trigger pin as they were (only the window is reset). -/
theorem dead_band_changes_nothing (s : State) (now a : Nat)
    (havg : average s = some a) (hlo : 8900 ≤ a) (hhi : a ≤ 9000) :
    hysteresis s a now = s ∧
    resolve s now = some { s with sum_freq := 0, avg_count := 0 } ∧
    ∃ t, resolve s now = some t ∧ t.trigger = s.trigger ∧
      t.startTriggerMillis = s.startTriggerMillis ∧ t.triggerPin = s.triggerPin := by
  have hh : hysteresis s a now = s := by
    unfold hysteresis
    rw [if_neg (by omega), if_neg (by omega)]
  have hr : resolve s now = some { s with sum_freq := 0, avg_count := 0 } := by
    simp [resolve, havg, hh]
  exact ⟨hh, hr, _, hr, rfl, rfl, rfl⟩

theorem dead_band_changes_nothing_witness :
    (average ⟨0, 5, true, 20, 179000, true⟩ = some 8950 ∧ 8900 ≤ 8950 ∧ 8950 ≤ 9000) ∧
    resolve ⟨0, 5, true, 20, 179000, true⟩ 700 = some ⟨0, 5, true, 0, 0, true⟩ :=
  ⟨⟨by decide, by decide, by decide⟩,
    (dead_band_changes_nothing ⟨0, 5, true, 20, 179000, true⟩ 700 8950
      (by decide) (by decide) (by decide)).2.1⟩

/-- C9: any sequence of passes of `loop()` from the initial state runs to the
end, and in the state it reaches `0 ≤ avg_count ≤ 20`; the averaging branch
is entered only with `avg_count = 20`, where the division yields
`sum_freq / 20`, so the next metal-detector step never fails.  (At
`avg_count = 0`, as in the initial state, the division would have no
result.) -/
theorem average_never_divides_by_zero (ins : List Input) :
    average setup = none ∧
    ∃ s es, run setup ins = some (s, es) ∧
      0 ≤ s.avg_count ∧ s.avg_count ≤ 20 ∧
      (¬ s.avg_count < 20 →
        s.avg_count = 20 ∧ average s = some (s.sum_freq / 20)) ∧
      ∀ inp, ∃ t, metalDetector s inp = some t := by
  refine ⟨by decide, ?_⟩
  obtain ⟨s, es, hrun, hinv⟩ := run_inv ins setup inv_setup
  refine ⟨s, es, hrun, hinv.1, hinv.2.1, ?_, ?_⟩
  · intro hc
    have h20 : s.avg_count = 20 := by
      have := hinv.2.1
      omega
    refine ⟨h20, ?_⟩
    rw [average_of_count s (by omega) (by unfold ULONG_RANGE; omega), h20]
    rfl
  · intro inp
    obtain ⟨t, ht, -⟩ := metalDetector_inv s inp hinv
    exact ⟨t, ht⟩

/-! ## Window reset and the output check -/

theorem repeatCheck_condition (now : Nat) (n : Nat) (s : State) :
    outputCondition (repeatCheck now n s) now = outputCondition s now ∧
    (repeatCheck now n s).trigger = s.trigger ∧
    (repeatCheck now n s).startTriggerMillis = s.startTriggerMillis ∧
    (repeatCheck now n s).avg_count = s.avg_count ∧
    (repeatCheck now n s).sum_freq = s.sum_freq := by
  induction n generalizing s with
  | zero => exact ⟨rfl, rfl, rfl, rfl, rfl⟩
  | succ n ih =>
    obtain ⟨h1, h2, h3, h4, h5⟩ := ih (outputCheck s now)
    obtain ⟨f1, f2, f3, f4, -⟩ := outputCheck_frame s now
    rw [repeatCheck, h1, h2, h3, h4, h5, f1, f2, f3, f4]
    refine ⟨?_, rfl, rfl, rfl, rfl⟩
    unfold outputCondition
    rw [f1, f2]

theorem noResolution_cons (s : State) (inp : Input) (rest : List Input) :
    noResolution s (inp :: rest) = true ↔
      s.avg_count < 20 ∧ ∃ t es, loop s inp = some (t, es) ∧ noResolution t rest = true := by
  rw [noResolution]
  rcases hl : loop s inp with _ | ⟨t, es⟩ <;> simp

theorem run_noResolution (ins : List Input) (s : State) (hno : noResolution s ins = true) :
    ∃ t es, run s ins = some (t, es) ∧ t.trigger = s.trigger ∧
      t.startTriggerMillis = s.startTriggerMillis := by
  induction ins generalizing s with
  | nil => exact ⟨s, [], rfl, rfl, rfl⟩
  | cons inp rest ih =>
    rw [noResolution_cons] at hno
    obtain ⟨hc, t, es, ht, hrest⟩ := hno
    obtain ⟨m, hm, htr, hst⟩ := loop_trigger s t es inp ht
    rw [metalDetector_sampling s inp hc] at hm
    simp only [Option.some.injEq] at hm
    subst hm
    rw [(outputCheck_frame _ _).1, (sample_frame _ _).1] at htr
    rw [(outputCheck_frame _ _).2.1, (sample_frame _ _).2.1] at hst
    obtain ⟨u, fs, hu, hut, hus⟩ := ih t hrest
    exact ⟨u, es ++ fs, by simp [run, ht, hu], by rw [hut, htr], by rw [hus, hst]⟩

/-- C11: whenever a window is resolved (the division has a result), the
state after lines 88-111 has `sum_freq = 0` and `avg_count = 0`, and so has
the state after the whole metal-detector step of a resolving pass; this
holds whichever branch fired, as the four evaluations show (arm, re-affirm
while armed, disarm, dead band). -/
theorem resolve_resets_window (s : State) (inp : Input) (a : Nat)
    (havg : average s = some a) :
    (∃ t, resolve s inp.millisArm = some t ∧ t.sum_freq = 0 ∧ t.avg_count = 0) ∧
    (¬ s.avg_count < 20 →
      ∃ t, metalDetector s inp = some t ∧ t.sum_freq = 0 ∧ t.avg_count = 0) ∧
    resolve ⟨0, 0, false, 20, 170000, false⟩ 7 = some ⟨0, 7, true, 0, 0, false⟩ ∧
    resolve ⟨0, 3, true, 20, 170000, true⟩ 7 = some ⟨0, 3, true, 0, 0, true⟩ ∧
    resolve ⟨0, 3, true, 20, 184000, true⟩ 7 = some ⟨0, 3, false, 0, 0, false⟩ ∧
    resolve ⟨0, 3, true, 20, 179000, true⟩ 7 = some ⟨0, 3, true, 0, 0, true⟩ := by
  refine ⟨⟨{ hysteresis s a inp.millisArm with sum_freq := 0, avg_count := 0 },
    by simp [resolve, havg], rfl, rfl⟩, ?_, by decide, by decide, by decide, by decide⟩
  intro hres
  refine ⟨_, metalDetector_resolving s inp hres a havg, ?_, ?_⟩
  · rw [(outputCheck_frame _ _).2.2.2.1]
  · rw [(outputCheck_frame _ _).2.2.1]

theorem resolve_resets_window_witness :
    average ⟨0, 3, true, 20, 184000, true⟩ = some 9200 ∧
    ∃ t, resolve ⟨0, 3, true, 20, 184000, true⟩ (reading 8500).millisArm = some t ∧
      t.sum_freq = 0 ∧ t.avg_count = 0 :=
  ⟨by decide,
    (resolve_resets_window ⟨0, 3, true, 20, 184000, true⟩ (reading 8500) 9200
      (by decide)).1⟩

/-- C12, as stated, fails: between two resolutions the check of line 115
does not return the same value each time.  From the initial state, twenty
accepted readings and a resolution at clock 1000 arm the trigger; the next
two passes resolve nothing, and the check is false in the first (clock 1050)
and true in the second (clock 1150). -/
theorem output_check_value_changes_between_resolutions :
    run setup (List.replicate 20 (reading 8500) ++ [⟨8500, 1000, 1000, fun _ => false⟩]) =
      some (⟨0, 1000, true, 0, 0, false⟩, []) ∧
    noResolution ⟨0, 1000, true, 0, 0, false⟩
      [⟨8500, 1050, 1050, fun _ => false⟩, ⟨8500, 1150, 1150, fun _ => false⟩] = true ∧
    outputCondition (sample ⟨0, 1000, true, 0, 0, false⟩ 8500) 1050 = false ∧
    loop ⟨0, 1000, true, 0, 0, false⟩ ⟨8500, 1050, 1050, fun _ => false⟩ =
      some (⟨0, 1000, true, 1, 8500, false⟩, []) ∧
    outputCondition (sample ⟨0, 1000, true, 1, 8500, false⟩ 8500) 1150 = true ∧
    loop ⟨0, 1000, true, 1, 8500, false⟩ ⟨8500, 1150, 1150, fun _ => false⟩ =
      some (⟨0, 1000, true, 2, 17000, true⟩, []) := by
  refine ⟨by decide, by decide, by decide, by decide, by decide, by decide⟩

/-- C12, amended: the check of lines 115-118 does not change `avg_count`,
`sum_freq`, `trigger` or `startTriggerMillis` (it can only write the pin
high); evaluated any number of times at one clock reading it returns the same
value each time; and over any run of passes that resolves no window the value
it returns for a given clock reading stays the same. -/
theorem output_check_is_pure_query (s : State) (now n : Nat) (ins : List Input)
    (hno : noResolution s ins = true) :
    ((outputCheck s now).avg_count = s.avg_count ∧
      (outputCheck s now).sum_freq = s.sum_freq ∧
      (outputCheck s now).trigger = s.trigger ∧
      (outputCheck s now).startTriggerMillis = s.startTriggerMillis) ∧
    outputCondition (repeatCheck now n s) now = outputCondition s now ∧
    (∃ t es, run s ins = some (t, es) ∧ t.trigger = s.trigger ∧
      t.startTriggerMillis = s.startTriggerMillis ∧
      outputCondition t now = outputCondition s now) := by
  obtain ⟨f1, f2, f3, f4, -⟩ := outputCheck_frame s now
  refine ⟨⟨f3, f4, f1, f2⟩, (repeatCheck_condition now n s).1, ?_⟩
  obtain ⟨t, es, ht, htr, hst⟩ := run_noResolution ins s hno
  refine ⟨t, es, ht, htr, hst, ?_⟩
  unfold outputCondition
  rw [htr, hst]

theorem output_check_is_pure_query_witness :
    noResolution ⟨0, 1000, true, 0, 0, false⟩
      [⟨8500, 1050, 1050, fun _ => false⟩, ⟨8500, 1150, 1150, fun _ => false⟩] = true ∧
    outputCondition (repeatCheck 1150 3 ⟨0, 1000, true, 0, 0, false⟩) 1150 =
      outputCondition ⟨0, 1000, true, 0, 0, false⟩ 1150 :=
  ⟨by decide,
    (output_check_is_pure_query ⟨0, 1000, true, 0, 0, false⟩ 1150 3
      [⟨8500, 1050, 1050, fun _ => false⟩, ⟨8500, 1150, 1150, fun _ => false⟩]
      (by decide)).2.1⟩

/-! ## Independence of the two halves of `loop()` -/

theorem metalDetector_monitorOf (s s' : State) (inp inp' : Input)
    (hs : monitorOf s = monitorOf s') (hi : detectorReadings inp = detectorReadings inp') :
    (metalDetector s inp).map monitorOf = (metalDetector s' inp').map monitorOf := by
  obtain ⟨a, b, c, d, e, f⟩ := s
  obtain ⟨a', b', c', d', e', f'⟩ := s'
  obtain ⟨x, y, z, k⟩ := inp
  obtain ⟨x', y', z', k'⟩ := inp'
  simp only [monitorOf, detectorReadings, Prod.mk.injEq] at hs hi
  obtain ⟨rfl, rfl, rfl, rfl, rfl⟩ := hs
  obtain ⟨rfl, rfl, rfl⟩ := hi
  simp only [metalDetector, sample, resolve, average, hysteresis, outputCheck,
    outputCondition]
  split_ifs <;> simp [monitorOf] <;> split_ifs <;> simp

theorem scanKeys_congr (keys keys' : Nat → Bool) (p : Nat)
    (h : (List.range 4).map keys = (List.range 4).map keys') :
    scanKeys keys 4 0 p = scanKeys keys' 4 0 p := by
  simp only [List.range, List.range.loop, List.map_cons, List.map_nil, List.cons.injEq,
    and_true] at h
  obtain ⟨h0, h1, h2, h3⟩ := h
  simp only [scanKeys, h0, h1, h2, h3]

theorem loop_scan (s t : State) (es : List Effect) (inp : Input)
    (h : loop s inp = some (t, es)) :
    scanKeys inp.keys 4 0 s.arrayIndex = some (t.arrayIndex, es) := by
  unfold loop at h
  cases hm : metalDetector s inp with
  | none => simp [hm] at h
  | some m =>
    rw [hm] at h
    unfold capacitiveKey at h
    simp only [metalDetector_arrayIndex s m inp hm] at h
    cases hs : scanKeys inp.keys 4 0 s.arrayIndex with
    | none => simp [hs] at h
    | some w =>
      obtain ⟨a, fs⟩ := w
      simp only [hs, Option.some.injEq, Prod.mk.injEq] at h
      obtain ⟨rfl, rfl⟩ := h
      rfl

theorem loop_monitorOf (s t : State) (es : List Effect) (inp : Input)
    (h : loop s inp = some (t, es)) :
    (metalDetector s inp).map monitorOf = some (monitorOf t) := by
  obtain ⟨m, hm, hf⟩ := loop_eq s t es inp h
  rw [hm, hf]
  rfl

theorem run_cursor_independent (ins ins' : List Input) (s s' : State)
    (hs : Inv s) (hs' : Inv s') (hidx : s.arrayIndex = s'.arrayIndex)
    (hk : ins.map keyReadings = ins'.map keyReadings) :
    ∃ t es t', run s ins = some (t, es) ∧ run s' ins' = some (t', es) ∧
      t.arrayIndex = t'.arrayIndex := by
  induction ins generalizing ins' s s' with
  | nil =>
    have : ins' = [] := by simpa using hk.symm
    subst this
    exact ⟨s, [], s', rfl, rfl, hidx⟩
  | cons inp rest ih =>
    cases ins' with
    | nil => simp at hk
    | cons inp' rest' =>
      simp only [List.map_cons, List.cons.injEq] at hk
      obtain ⟨hk1, hk2⟩ := hk
      obtain ⟨m, es, hm, hminv⟩ := loop_inv s inp hs
      obtain ⟨m', es', hm', hminv'⟩ := loop_inv s' inp' hs'
      have h1 := loop_scan s m es inp hm
      have h2 := loop_scan s' m' es' inp' hm'
      rw [scanKeys_congr inp.keys inp'.keys s.arrayIndex hk1, hidx, h2] at h1
      simp only [Option.some.injEq, Prod.mk.injEq] at h1
      obtain ⟨hmi, rfl⟩ := h1
      obtain ⟨t, fs, t', ht, ht', hti⟩ := ih rest' m m' hminv hminv' hmi.symm hk2
      exact ⟨t, es' ++ fs, t', by simp [run, hm, ht], by simp [run, hm', ht'], hti⟩

theorem run_monitor_independent (ins ins' : List Input) (s s' : State)
    (hs : Inv s) (hs' : Inv s') (hmon : monitorOf s = monitorOf s')
    (hk : ins.map detectorReadings = ins'.map detectorReadings) :
    ∃ t es t' es', run s ins = some (t, es) ∧ run s' ins' = some (t', es') ∧
      monitorOf t = monitorOf t' := by
  induction ins generalizing ins' s s' with
  | nil =>
    have : ins' = [] := by simpa using hk.symm
    subst this
    exact ⟨s, [], s', [], rfl, rfl, hmon⟩
  | cons inp rest ih =>
    cases ins' with
    | nil => simp at hk
    | cons inp' rest' =>
      simp only [List.map_cons, List.cons.injEq] at hk
      obtain ⟨hk1, hk2⟩ := hk
      obtain ⟨m, es, hm, hminv⟩ := loop_inv s inp hs
      obtain ⟨m', es', hm', hminv'⟩ := loop_inv s' inp' hs'
      have h1 := loop_monitorOf s m es inp hm
      have h2 := loop_monitorOf s' m' es' inp' hm'
      rw [metalDetector_monitorOf s s' inp inp' hmon hk1, h2] at h1
      simp only [Option.some.injEq] at h1
      obtain ⟨t, fs, t', fs', ht, ht', hti⟩ := ih rest' m m' hminv hminv' h1.symm hk2
      exact ⟨t, es ++ fs, t', es' ++ fs', by simp [run, hm, ht], by simp [run, hm', ht'],
        hti⟩

/-- C13: the metal-detector step leaves `arrayIndex` unchanged for every
input, and the key scan leaves `avg_count`, `sum_freq`, `trigger`,
`startTriggerMillis` (and the trigger pin) unchanged for every combination of
active keys.  Hence two runs of `loop()` from the initial state whose passes
read the same keys end at the same `arrayIndex` with the same buzzer and LED
effects whatever the frequency and clock readings, and two runs whose passes
read the same frequencies and clock values end with the same detector
variables whatever the keys. -/
theorem halves_are_independent (s : State) (inp : Input) (ins ins' : List Input) :
    (∀ t, metalDetector s inp = some t → t.arrayIndex = s.arrayIndex) ∧
    (∀ t es, capacitiveKey s inp = some (t, es) →
      t.avg_count = s.avg_count ∧ t.sum_freq = s.sum_freq ∧ t.trigger = s.trigger ∧
      t.startTriggerMillis = s.startTriggerMillis ∧ t.triggerPin = s.triggerPin) ∧
    (ins.map keyReadings = ins'.map keyReadings →
      ∃ t es t' es', run setup ins = some (t, es) ∧ run setup ins' = some (t', es') ∧
        t.arrayIndex = t'.arrayIndex ∧ es = es' ∧ unlockCount es = unlockCount es') ∧
    (ins.map detectorReadings = ins'.map detectorReadings →
      ∃ t es t' es', run setup ins = some (t, es) ∧ run setup ins' = some (t', es') ∧
        t.avg_count = t'.avg_count ∧ t.sum_freq = t'.sum_freq ∧ t.trigger = t'.trigger ∧
        t.startTriggerMillis = t'.startTriggerMillis ∧ t.triggerPin = t'.triggerPin) := by
  refine ⟨fun t ht => metalDetector_arrayIndex s t inp ht, ?_, ?_, ?_⟩
  · intro t es ht
    have hf := capacitiveKey_frame s t es inp ht
    refine ⟨?_, ?_, ?_, ?_, ?_⟩ <;> rw [hf]
  · intro hk
    obtain ⟨t, es, t', h1, h2, h3⟩ :=
      run_cursor_independent ins ins' setup setup inv_setup inv_setup rfl hk
    exact ⟨t, es, t', es, h1, h2, h3, rfl, rfl⟩
  · intro hk
    obtain ⟨t, es, t', es', h1, h2, h3⟩ :=
      run_monitor_independent ins ins' setup setup inv_setup inv_setup rfl hk
    simp only [monitorOf, Prod.mk.injEq] at h3
    obtain ⟨g1, g2, g3, g4, g5⟩ := h3
    exact ⟨t, es, t', es', h1, h2, g3, g4, g2, g1, g5⟩

/-! ## The key scan of one pass -/

theorem keyReadings_keysOf (keys : Nat → Bool) :
    (List.range 4).map keys =
      (List.range 4).map (keysOf (keys 0) (keys 1) (keys 2) (keys 3)) := by
  simp [List.range, List.range.loop, keysOf]

theorem activeKeys_congr (keys keys' : Nat → Bool)
    (h : (List.range 4).map keys = (List.range 4).map keys') :
    activeKeys keys = activeKeys keys' := by
  simp only [List.range, List.range.loop, List.map_cons, List.map_nil, List.cons.injEq,
    and_true] at h
  obtain ⟨h0, h1, h2, h3⟩ := h
  simp only [activeKeys, List.range, List.range.loop, List.filter, h0, h1, h2, h3]

theorem scan_fold_concrete (b0 b1 b2 b3 : Bool) (p : Nat) :
    (scanKeys (keysOf b0 b1 b2 b3) 4 0 p).map (fun r => (r.1, unlockCount r.2)) =
      (feed p (activeKeys (keysOf b0 b1 b2 b3))).map
        (fun r => (r.1, (r.2.map unlockCount).sum)) := by
  by_cases hp : p < 5
  · interval_cases p <;> cases b0 <;> cases b1 <;> cases b2 <;> cases b3 <;> decide
  · have hn : ∀ k : Int, onKey p k = none := fun k => onKey_none_of_ge p k (by omega)
    cases b0 <;> cases b1 <;> cases b2 <;> cases b3 <;>
      simp [scanKeys, keysOf, activeKeys, List.range, List.range.loop, List.filter, feed, hn,
        unlockCount]

/-- C14: for every combination of keys above threshold and every cursor, the
key scan of one pass and the fold of the single-key transition over the
active key indices, in ascending order, agree on whether they succeed, on the
final cursor and on the number of unlock actions; from a cursor below 5 the
scan succeeds.  (The equality is on cursor and unlock actions: after a
completing key the `for` loop is left, so later keys are not read and their
tones are not played, as the last two evaluations show.) -/
theorem key_scan_is_fold_over_active_keys (keys : Nat → Bool) (p : Nat) :
    ((scanKeys keys 4 0 p).map (fun r => (r.1, unlockCount r.2)) =
      (feed p (activeKeys keys)).map (fun r => (r.1, (r.2.map unlockCount).sum))) ∧
    (p < 5 → ∃ a es, scanKeys keys 4 0 p = some (a, es) ∧ a < 5) ∧
    activeKeys (keysOf true false true true) = [0, 2, 3] ∧
    scanKeys (keysOf true true true true) 4 0 4 =
      some (0, toneEffects 0 ++ unlockAction) ∧
    feed 4 (activeKeys (keysOf true true true true)) =
      some (0, [toneEffects 0 ++ unlockAction, toneEffects 1, toneEffects 2,
        toneEffects 3]) := by
  refine ⟨?_, fun hp => scanKeys_lt keys 4 0 p hp, by decide, by decide, by decide⟩
  have h := keyReadings_keysOf keys
  rw [scanKeys_congr keys _ p h, activeKeys_congr keys _ h]
  exact scan_fold_concrete (keys 0) (keys 1) (keys 2) (keys 3) p

/-! ## The latched trigger pin -/

theorem chronological_append (last : Nat) (a b : List Input) :
    chronological last (a ++ b) =
      (chronological last a && chronological (lastCheck last a) b) := by
  induction a generalizing last with
  | nil => simp [chronological, lastCheck]
  | cons inp rest ih =>
    rw [List.cons_append, chronological, chronological, lastCheck, ih]
    simp only [Bool.and_assoc]

theorem latched_mono (s : State) (last now : Nat) (h : latched s last)
    (hle : last ≤ now) (hnow : now < ULONG_RANGE) : latched s now := by
  obtain ⟨h1, h2, -⟩ := h
  refine ⟨fun hp => ?_, fun ht => ?_, hnow⟩
  · obtain ⟨g1, g2⟩ := h1 hp
    exact ⟨g1, by omega⟩
  · have := h2 ht
    omega

theorem outputCheck_latched (m : State) (now : Nat) (h : latched m now) :
    latched (outputCheck m now) now ∧
    (outputCheck m now).triggerPin =
      outputSignalSpec m.trigger m.startTriggerMillis now ∧
    (outputCheck m now).triggerPin = outputCondition m now := by
  obtain ⟨h1, h2, h3⟩ := h
  obtain ⟨f1, f2, -, -, -⟩ := outputCheck_frame m now
  have hpin := outputCheck_pin m now
  cases ht : m.trigger with
  | false =>
    have hp : m.triggerPin = false := by
      cases hq : m.triggerPin with
      | false => rfl
      | true => have := (h1 hq).1; simp [ht] at this
    have hc : outputCondition m now = false := by simp [outputCondition, ht]
    rw [hp, hc] at hpin
    refine ⟨⟨?_, ?_, h3⟩, ?_, ?_⟩
    · intro hq
      simp [hpin] at hq
    · intro hq
      rw [f1, ht] at hq
      simp at hq
    · simp [hpin, outputSignalSpec]
    · simp [hpin, hc]
  | true =>
    have hle := h2 ht
    have hu : usub now m.startTriggerMillis = now - m.startTriggerMillis :=
      usub_of_le _ _ hle h3
    have hc : outputCondition m now = decide (100 < now - m.startTriggerMillis) := by
      simp [outputCondition, ht, hu]
    have hpin2 : (outputCheck m now).triggerPin =
        decide (100 < now - m.startTriggerMillis) := by
      rw [hpin, hc]
      cases hq : m.triggerPin with
      | false => simp
      | true =>
        have := (h1 hq).2
        simp
        omega
    refine ⟨⟨?_, ?_, h3⟩, ?_, ?_⟩
    · intro hq
      rw [hpin2] at hq
      rw [f1, f2]
      simp at hq
      exact ⟨ht, by omega⟩
    · intro _
      rw [f2]
      exact hle
    · rw [hpin2]
      simp only [outputSignalSpec, Bool.true_and]
      congr 1
      apply propext
      constructor <;> intro hh <;> omega
    · rw [hpin2, hc]

theorem hysteresis_latched (s : State) (a arm now : Nat) (h : latched s now)
    (hle : arm ≤ now) : latched (hysteresis s a arm) now := by
  obtain ⟨h1, h2, h3⟩ := h
  unfold hysteresis
  split_ifs with c1 c2 c3
  · refine ⟨fun hp => ?_, fun _ => hle, h3⟩
    have := (h1 hp).1
    simp [c2] at this
  · exact ⟨h1, h2, h3⟩
  · exact ⟨fun hp => by simp at hp, fun hp => by simp at hp, h3⟩
  · exact ⟨h1, h2, h3⟩

theorem latched_congr (s m : State) (now : Nat) (h : latched s now)
    (h1 : m.triggerPin = s.triggerPin) (h2 : m.trigger = s.trigger)
    (h3 : m.startTriggerMillis = s.startTriggerMillis) : latched m now := by
  unfold latched at *
  rw [h1, h2, h3]
  exact h

theorem metalDetector_latched (s t : State) (inp : Input) (last : Nat)
    (h : latched s last) (h1 : last ≤ inp.millisArm)
    (h2 : inp.millisArm ≤ inp.millisCheck) (h3 : inp.millisCheck < ULONG_RANGE)
    (ht : metalDetector s inp = some t) :
    latched t inp.millisCheck ∧
    t.triggerPin = outputSignalSpec t.trigger t.startTriggerMillis inp.millisCheck ∧
    t.triggerPin = outputCondition t inp.millisCheck := by
  have hs : latched s inp.millisCheck := latched_mono s last _ h (by omega) h3
  have key : ∀ m : State, latched m inp.millisCheck →
      t = outputCheck m inp.millisCheck →
      latched t inp.millisCheck ∧
      t.triggerPin = outputSignalSpec t.trigger t.startTriggerMillis inp.millisCheck ∧
      t.triggerPin = outputCondition t inp.millisCheck := by
    intro m hm hte
    obtain ⟨g1, g2, g3⟩ := outputCheck_latched m inp.millisCheck hm
    obtain ⟨f1, f2, -, -, -⟩ := outputCheck_frame m inp.millisCheck
    subst hte
    refine ⟨g1, ?_, ?_⟩
    · rw [g2, f1, f2]
    · rw [g3]
      unfold outputCondition
      rw [f1, f2]
  by_cases hc : s.avg_count < 20
  · rw [metalDetector_sampling s inp hc] at ht
    simp only [Option.some.injEq] at ht
    obtain ⟨e1, e2, e3, -⟩ := sample_frame s inp.freq
    exact key _ (latched_congr s _ _ hs e3 e1 e2) ht.symm
  · cases ha : average s with
    | none => simp [metalDetector, hc, resolve, ha] at ht
    | some a =>
      rw [metalDetector_resolving s inp hc a ha] at ht
      simp only [Option.some.injEq] at ht
      exact key { hysteresis s a inp.millisArm with sum_freq := 0, avg_count := 0 }
        (latched_congr (hysteresis s a inp.millisArm) _ _
          (hysteresis_latched s a inp.millisArm inp.millisCheck hs h2) rfl rfl rfl) ht.symm

theorem run_latched (ins : List Input) (s t : State) (es : List Effect) (last : Nat)
    (h : latched s last) (hc : chronological last ins = true)
    (hr : run s ins = some (t, es)) : latched t (lastCheck last ins) := by
  induction ins generalizing s es last with
  | nil =>
    simp only [run, Option.some.injEq, Prod.mk.injEq] at hr
    obtain ⟨rfl, -⟩ := hr
    exact h
  | cons inp rest ih =>
    simp only [chronological, Bool.and_eq_true, decide_eq_true_eq] at hc
    obtain ⟨⟨⟨c1, c2⟩, c3⟩, c4⟩ := hc
    rw [run] at hr
    rcases hl : loop s inp with _ | ⟨m, fs⟩
    · simp [hl] at hr
    · rw [hl] at hr
      rcases hr2 : run m rest with _ | ⟨u, gs⟩
      · simp [hr2] at hr
      · simp only [hr2, Option.some.injEq, Prod.mk.injEq] at hr
        obtain ⟨rfl, -⟩ := hr
        obtain ⟨d, hd, hf⟩ := loop_eq s m fs inp hl
        have hdl := (metalDetector_latched s d inp last h c1 c2 c3 hd).1
        have hml : latched m inp.millisCheck := by
          rw [hf]
          exact latched_congr d _ _ hdl rfl rfl rfl
        exact ih m gs inp.millisCheck hml c4 hr2

/-- C15: start from the initial state and let the clock readings of the
passes never decrease and never wrap.  Then the run of any number of passes
succeeds, and at the end of the metal-detector step of the next pass the
trigger pin is high iff `trigger` is set and `now - startTriggerMillis > 100`
for the clock reading `now` of line 115.  So the latched pin equals the
level-driven signal that the specification describes, and keeps that level to
the end of the pass. -/
theorem pin_follows_output_signal (ins : List Input) (inp : Input)
    (h : chronological 0 (ins ++ [inp]) = true) :
    ∃ s es t, run setup ins = some (s, es) ∧ metalDetector s inp = some t ∧
      (t.triggerPin = true ↔
        (t.trigger = true ∧ 100 < (inp.millisCheck : Int) - t.startTriggerMillis)) ∧
      t.triggerPin = outputSignalSpec t.trigger t.startTriggerMillis inp.millisCheck ∧
      t.triggerPin = outputCondition t inp.millisCheck ∧
      ∃ u fs, loop s inp = some (u, fs) ∧ u.triggerPin = t.triggerPin ∧
        u.trigger = t.trigger ∧ u.startTriggerMillis = t.startTriggerMillis := by
  rw [chronological_append] at h
  simp only [Bool.and_eq_true, chronological, decide_eq_true_eq, and_true] at h
  obtain ⟨hc, ⟨c1, c2⟩, c3⟩ := h
  obtain ⟨s, es, hrun, hinv⟩ := run_inv ins setup inv_setup
  have h0 : latched setup 0 := by
    refine ⟨fun hp => ?_, fun hp => ?_, by decide⟩
    · simp [setup] at hp
    · simp [setup] at hp
  have hs := run_latched ins setup s es 0 h0 hc hrun
  obtain ⟨t, ht, -⟩ := metalDetector_inv s inp hinv
  obtain ⟨-, g2, g3⟩ := metalDetector_latched s t inp _ hs c1 c2 c3 ht
  obtain ⟨u, fs, hu, hf, -⟩ := loop_total s inp t ht hinv.2.2.1
  refine ⟨s, es, t, hrun, ht, ?_, g2, g3, u, fs, hu, ?_, ?_, ?_⟩
  · rw [g2]
    simp [outputSignalSpec]
  · rw [hf]
  · rw [hf]
  · rw [hf]

theorem pin_follows_output_signal_witness :
    chronological 0 ((List.replicate 20 (reading 8500) ++
      [⟨8500, 1000, 1000, fun _ => false⟩, ⟨8500, 1050, 1050, fun _ => false⟩]) ++
      [⟨8500, 1150, 1150, fun _ => false⟩]) = true ∧
    ∃ s es t, run setup (List.replicate 20 (reading 8500) ++
        [⟨8500, 1000, 1000, fun _ => false⟩, ⟨8500, 1050, 1050, fun _ => false⟩]) =
        some (s, es) ∧
      metalDetector s ⟨8500, 1150, 1150, fun _ => false⟩ = some t ∧
      t.triggerPin = outputSignalSpec t.trigger t.startTriggerMillis 1150 :=
  ⟨by decide,
    (pin_follows_output_signal (List.replicate 20 (reading 8500) ++
      [⟨8500, 1000, 1000, fun _ => false⟩, ⟨8500, 1050, 1050, fun _ => false⟩])
      ⟨8500, 1150, 1150, fun _ => false⟩ (by decide)).imp
      fun _ hs => hs.imp fun _ he => he.imp fun _ ht => ⟨ht.1, ht.2.1, ht.2.2.2.1⟩⟩

/-! ## Truncated and exact average -/

theorem exactBranch_eq (sum : Nat) :
    exactBranch sum =
      if sum < 178000 then Branch.arm
      else if 180000 < sum then Branch.disarm
      else Branch.deadBand := by
  have h1 : ((sum : ℚ) / 20 < 8900) ↔ sum < 178000 := by
    rw [div_lt_iff₀ (by norm_num)]
    have : (8900 : ℚ) * 20 = ((178000 : Nat) : ℚ) := by norm_num
    rw [this, Nat.cast_lt]
  have h2 : ((sum : ℚ) / 20 > 9000) ↔ 180000 < sum := by
    rw [gt_iff_lt, lt_div_iff₀ (by norm_num)]
    have : (9000 : ℚ) * 20 = ((180000 : Nat) : ℚ) := by norm_num
    rw [this, Nat.cast_lt]
  unfold exactBranch
  simp only [h1, h2]

theorem branchOf_quotient (sum : Nat) :
    branchOf (sum / 20) =
      if sum < 178000 then Branch.arm
      else if 180020 ≤ sum then Branch.disarm
      else Branch.deadBand := by
  unfold branchOf
  have h1 : sum / 20 < 8900 ↔ sum < 178000 := by omega
  have h2 : sum / 20 > 9000 ↔ 180020 ≤ sum := by omega
  simp only [h1, h2]

theorem hysteresis_branchOf (s : State) (frequency now : Nat) :
    hysteresis s frequency now =
      match branchOf frequency with
      | Branch.arm =>
        if s.trigger = false then { s with startTriggerMillis := now, trigger := true }
        else s
      | Branch.deadBand => s
      | Branch.disarm => { s with trigger := false, triggerPin := false } := by
  unfold hysteresis branchOf
  split_ifs <;> rfl

theorem run_window (w : List Int) (hw : acceptedWindow w) :
    ∃ s es, run setup (w.map reading) = some (s, es) ∧ s.avg_count = 20 ∧
      s.sum_freq = windowSum w ∧ average s = some (windowSum w / 20) := by
  obtain ⟨hlen, hband⟩ := hw
  have hin : ∀ i ∈ w.map reading, inBand i.freq := by
    intro i hi
    rw [List.mem_map] at hi
    obtain ⟨f, hf, rfl⟩ := hi
    have := hband f hf
    unfold inBand reading
    simp only
    omega
  obtain ⟨s, es, hrun, -, hc, hsum⟩ := run_inBand (w.map reading) setup inv_setup
    (by simp [setup, hlen]) hin
  have hc20 : s.avg_count = 20 := by
    rw [hc]
    simp [setup, hlen]
  have hs : s.sum_freq = windowSum w := by
    rw [hsum]
    simp [setup, freqSum, windowSum, reading, Function.comp_def]
  refine ⟨s, es, hrun, hc20, hs, ?_⟩
  rw [average_of_count s (by omega) (by unfold ULONG_RANGE; omega), hc20, hs]
  rfl

/-- C16, as stated, fails: the window of nineteen readings 9001 and one
reading 9000 is accepted and sums to 180019; the truncated quotient is 9000,
so the code takes the dead band (an armed trigger stays armed and its pin
high), while the exact average 9000.95 is above 9000 and selects the disarm
branch. -/
theorem truncation_changes_decision :
    acceptedWindow (List.replicate 19 9001 ++ [9000]) ∧
    windowSum (List.replicate 19 9001 ++ [9000]) = 180019 ∧
    run setup ((List.replicate 19 9001 ++ [9000]).map reading) =
      some (⟨0, 0, false, 20, 180019, false⟩, []) ∧
    average ⟨0, 0, false, 20, 180019, false⟩ = some 9000 ∧
    branchOf 9000 = Branch.deadBand ∧
    exactBranch 180019 = Branch.disarm ∧
    resolve ⟨0, 5, true, 20, 180019, true⟩ 7 = some ⟨0, 5, true, 0, 0, true⟩ := by
  refine ⟨⟨by decide, ?_⟩, by decide, by decide, by decide, by decide, ?_, by decide⟩
  · intro f hf
    simp only [List.mem_append, List.mem_replicate, List.mem_singleton] at hf
    omega
  · rw [exactBranch_eq]
    decide

/-- C16, amended: for a full window of 20 accepted readings the code averages
to the truncated quotient `sum / 20`, and the branch that quotient selects is
the branch of the exact average `sum / 20` unless `180000 < sum < 180020`
(exact average strictly between 9000 and 9001), where the code takes the dead
band and the exact average would disarm; the arm decision (below 8900) is
always the same. -/
theorem truncation_agrees_off_the_disarm_boundary (w : List Int)
    (hw : acceptedWindow w) :
    ∃ s es, run setup (w.map reading) = some (s, es) ∧
      s.avg_count = 20 ∧ s.sum_freq = windowSum w ∧
      average s = some (windowSum w / 20) ∧
      (branchOf (windowSum w / 20) = exactBranch (windowSum w) ↔
        ¬ (180000 < windowSum w ∧ windowSum w < 180020)) ∧
      ((180000 < windowSum w ∧ windowSum w < 180020) →
        branchOf (windowSum w / 20) = Branch.deadBand ∧
        exactBranch (windowSum w) = Branch.disarm) ∧
      (branchOf (windowSum w / 20) = Branch.arm ↔
        exactBranch (windowSum w) = Branch.arm) := by
  obtain ⟨s, es, hrun, hc, hs, ha⟩ := run_window w hw
  refine ⟨s, es, hrun, hc, hs, ha, ?_, ?_, ?_⟩
  · rw [branchOf_quotient, exactBranch_eq]
    split_ifs <;> simp <;> omega
  · intro hb
    rw [branchOf_quotient, exactBranch_eq]
    split_ifs <;> simp <;> omega
  · rw [branchOf_quotient, exactBranch_eq]
    split_ifs <;> simp

theorem truncation_agrees_off_the_disarm_boundary_witness :
    acceptedWindow (List.replicate 20 8500) ∧
    ∃ s es, run setup ((List.replicate 20 (8500 : Int)).map reading) = some (s, es) ∧
      s.avg_count = 20 ∧ s.sum_freq = windowSum (List.replicate 20 8500) ∧
      average s = some (windowSum (List.replicate 20 8500) / 20) :=
  ⟨⟨by decide, by simp⟩,
    (truncation_agrees_off_the_disarm_boundary (List.replicate 20 8500)
      ⟨by decide, by simp⟩).imp
      fun _ hs => hs.imp fun _ h => ⟨h.1, h.2.1, h.2.2.1, h.2.2.2.1⟩⟩

/-! ## Meaning and bounds of the cursor -/

theorem feed_snoc (p q : Nat) (ks : List Int) (k : Int) (ess : List (List Effect))
    (r : KeyResult) (h : feed p ks = some (q, ess)) (hr : onKey q k = some r) :
    feed p (ks ++ [k]) = some (r.arrayIndex, ess ++ [r.effects]) := by
  rw [feed_append p ks [k] q ess h]
  simp [feed, hr]

theorem onKey_step (q : Nat) (k : Int) (r : KeyResult) (hq : q < 5)
    (hr : onKey q k = some r) :
    (r.arrayIndex = q + 1 ∧ initialArray[q]? = some k ∧ unlockCount r.effects = 0) ∨
    (r.arrayIndex = 0 ∧ unlockCount r.effects = 0) ∨
    (r.arrayIndex = 0 ∧ q = 4 ∧ k = 0 ∧ unlockCount r.effects = 1) := by
  interval_cases q <;>
    · simp only [onKey, initialArray, SEQUENCE_SIZE] at hr
      simp at hr
      split_ifs at hr with hk <;>
        · simp only [Option.some.injEq] at hr
          subst hr
          simp_all [unlockCount, toneEffects, unlockAction, initialArray]

theorem feed_cursor (ks : List Int) :
    ∃ p ess, feed 0 ks = some (p, ess) ∧ p < 5 ∧ ess.length = ks.length ∧
      ∃ pre, ks = pre ++ initialArray.take p := by
  induction ks using List.reverseRecOn with
  | nil => exact ⟨0, [], rfl, by decide, rfl, [], rfl⟩
  | append_singleton ks k ih =>
    obtain ⟨q, ess, hf, hq, hlen, pre, hpre⟩ := ih
    obtain ⟨r, hr, hlt⟩ := onKey_lt q k hq
    refine ⟨r.arrayIndex, ess ++ [r.effects], feed_snoc 0 q ks k ess r hf hr, hlt,
      by simp [hlen], ?_⟩
    rcases onKey_step q k r hq hr with ⟨h1, h2, -⟩ | ⟨h1, -⟩ | ⟨h1, -⟩
    · refine ⟨pre, ?_⟩
      rw [h1, List.take_succ, h2, ← List.append_assoc, ← hpre]
      rfl
    · exact ⟨ks ++ [k], by rw [h1]; simp⟩
    · exact ⟨ks ++ [k], by rw [h1]; simp⟩

theorem feed_unlock_last (ks : List Int) (k : Int) (q : Nat) (ess : List (List Effect))
    (e : List Effect) (hf : feed 0 (ks ++ [k]) = some (q, ess))
    (he : ess.getLast? = some e) (hu : 0 < unlockCount e) :
    ∃ pre, ks ++ [k] = pre ++ [0, 1, 2, 3, 0] := by
  obtain ⟨p, fss, hp, hlt, -, pre, hpre⟩ := feed_cursor ks
  obtain ⟨r, hr, -⟩ := onKey_lt p k hlt
  rw [feed_snoc 0 p ks k fss r hp hr] at hf
  simp only [Option.some.injEq, Prod.mk.injEq] at hf
  obtain ⟨-, rfl⟩ := hf
  rw [List.getLast?_append, List.getLast?_singleton] at he
  have he2 : r.effects = e := by simpa [Option.or] using he
  subst he2
  rcases onKey_step p k r hlt hr with ⟨-, -, h0⟩ | ⟨-, h0⟩ | ⟨-, h4, hk, -⟩
  · omega
  · omega
  · subst h4 hk
    refine ⟨pre, ?_⟩
    rw [hpre, List.append_assoc]
    rfl

theorem drop_append_length (pre x : List Int) :
    (pre ++ x).drop ((pre ++ x).length - x.length) = x := by
  simp

theorem length_take_target (p : Nat) (hp : p < 5) : (initialArray.take p).length = p := by
  interval_cases p <;> rfl

/-- C17: for every sequence of key events fed from cursor 0 the matcher
succeeds and the cursor `p` it ends at is below 5, and the last `p` events
are exactly `initialArray[0..p)`.  Hence, whenever the last event of a
sequence emits an unlock action, the five most recent events are
0,1,2,3,0. -/
theorem cursor_counts_matched_events (ks : List Int) (k : Int) :
    (∃ p ess, feed 0 ks = some (p, ess) ∧ p < 5 ∧ ess.length = ks.length ∧
      p ≤ ks.length ∧ ks.drop (ks.length - p) = initialArray.take p) ∧
    (∀ q ess e, feed 0 (ks ++ [k]) = some (q, ess) → ess.getLast? = some e →
      0 < unlockCount e →
      5 ≤ (ks ++ [k]).length ∧
      (ks ++ [k]).drop ((ks ++ [k]).length - 5) = [0, 1, 2, 3, 0]) := by
  constructor
  · obtain ⟨p, ess, hf, hlt, hlen, pre, hpre⟩ := feed_cursor ks
    have hl := length_take_target p hlt
    refine ⟨p, ess, hf, hlt, hlen, ?_, ?_⟩
    · have := congrArg List.length hpre
      rw [List.length_append, hl] at this
      omega
    · have := drop_append_length pre (initialArray.take p)
      rw [hl, ← hpre] at this
      exact this
  · intro q ess e hf he hu
    obtain ⟨pre, hpre⟩ := feed_unlock_last ks k q ess e hf he hu
    have := drop_append_length pre [0, 1, 2, 3, 0]
    rw [← hpre] at this
    refine ⟨?_, this⟩
    rw [hpre]
    simp

/-- C18: the events 0,0,1,2,3,0 contain the target 0,1,2,3,0 as a contiguous
run (after the first event), yet fed from cursor 0 they emit no unlock action
at any event: the second 0 mismatches `initialArray[1]`, resets the cursor to
0 and is not taken as the start of a new attempt, so the run ends at cursor
1.  The same holds for six passes of `loop()` pressing these keys. -/
theorem no_sliding_window_matching :
    ([0, 0, 1, 2, 3, 0] : List Int) = [0] ++ initialArray ∧
    (∃ ess, feed 0 [0, 0] = some (0, ess)) ∧
    (∃ ess, feed 0 [0, 0, 1, 2, 3, 0] = some (1, ess) ∧
      ess.map unlockCount = [0, 0, 0, 0, 0, 0]) ∧
    (∃ t es, run setup ([0, 0, 1, 2, 3, 0].map press) = some (t, es) ∧
      t.arrayIndex = 1 ∧ unlockCount es = 0) := by
  refine ⟨by decide, ⟨_, rfl⟩, ⟨_, rfl, by decide⟩, ⟨_, _, rfl, by decide, by decide⟩⟩

/-- C19: every run of `loop()` from the initial state succeeds, so no read of
`initialArray[arrayIndex]` falls outside the array (such a read has no
result), and the state reached has `arrayIndex < 5`; from it every further
key transition and every key scan, whatever the keys, reads inside the array
and ends below 5 again.  The completing transition at cursor 4 returns
cursor 0, so 5 is never stored between two reads. -/
theorem cursor_stays_in_bounds (ins : List Input) :
    initialArray.length = 5 ∧
    (∀ k, onKey 5 k = none) ∧
    (onKey 4 0).map (fun r => r.arrayIndex) = some 0 ∧
    ∃ s es, run setup ins = some (s, es) ∧ s.arrayIndex < 5 ∧
      (∃ x, initialArray[s.arrayIndex]? = some x) ∧
      (∀ k, ∃ r, onKey s.arrayIndex k = some r ∧ r.arrayIndex < 5) ∧
      (∀ keys n i, ∃ a fs, scanKeys keys n i s.arrayIndex = some (a, fs) ∧ a < 5) ∧
      (∀ inp, ∃ t fs, loop s inp = some (t, fs) ∧ t.arrayIndex < 5) := by
  refine ⟨rfl, fun k => onKey_none_of_ge 5 k (le_refl 5), by decide, ?_⟩
  obtain ⟨s, es, hrun, hinv⟩ := run_inv ins setup inv_setup
  have hlt := hinv.2.2.1
  refine ⟨s, es, hrun, hlt, ?_, fun k => onKey_lt s.arrayIndex k hlt,
    fun keys n i => scanKeys_lt keys n i s.arrayIndex hlt, ?_⟩
  · have : s.arrayIndex < initialArray.length := hlt
    exact ⟨initialArray[s.arrayIndex], List.getElem?_eq_getElem this⟩
  · intro inp
    obtain ⟨t, fs, ht, hti⟩ := loop_inv s inp hinv
    exact ⟨t, fs, ht, hti.2.2.1⟩

/-- C20: every run of `loop()` from the initial state reaches a state with
`8001 * avg_count ≤ sum_freq ≤ 9499 * avg_count`, hence `sum_freq ≤ 189980`:
the 32-bit accumulator does not overflow, nor does the next addition.  When
the window is resolved the average lies in `8001..9499`.  Each of the three
branches of the hysteresis is taken by some window of accepted readings
(all 8500, all 8950, all 9200). -/
theorem accumulator_and_average_range (ins : List Input) :
    (∃ s es, run setup ins = some (s, es) ∧
      8001 * s.avg_count ≤ (s.sum_freq : Int) ∧
      (s.sum_freq : Int) ≤ 9499 * s.avg_count ∧
      s.sum_freq ≤ 189980 ∧ s.sum_freq < ULONG_RANGE ∧
      (∀ f, inBand f → s.sum_freq + f.toNat < ULONG_RANGE) ∧
      (¬ s.avg_count < 20 →
        ∃ a, average s = some a ∧ 8001 ≤ a ∧ a ≤ 9499)) ∧
    (run setup ((List.replicate 20 (8500 : Int)).map reading) =
        some (⟨0, 0, false, 20, 170000, false⟩, []) ∧
      average ⟨0, 0, false, 20, 170000, false⟩ = some 8500 ∧
      branchOf 8500 = Branch.arm) ∧
    (run setup ((List.replicate 20 (8950 : Int)).map reading) =
        some (⟨0, 0, false, 20, 179000, false⟩, []) ∧
      average ⟨0, 0, false, 20, 179000, false⟩ = some 8950 ∧
      branchOf 8950 = Branch.deadBand) ∧
    (run setup ((List.replicate 20 (9200 : Int)).map reading) =
        some (⟨0, 0, false, 20, 184000, false⟩, []) ∧
      average ⟨0, 0, false, 20, 184000, false⟩ = some 9200 ∧
      branchOf 9200 = Branch.disarm) := by
  refine ⟨?_, ⟨by decide, by decide, by decide⟩, ⟨by decide, by decide, by decide⟩,
    ⟨by decide, by decide, by decide⟩⟩
  obtain ⟨s, es, hrun, h0, h20, -, hlo, hhi⟩ := run_inv ins setup inv_setup
  refine ⟨s, es, hrun, hlo, hhi, by omega, by unfold ULONG_RANGE; omega, ?_, ?_⟩
  · intro f hf
    unfold inBand at hf
    unfold ULONG_RANGE
    omega
  · intro hc
    have hc20 : s.avg_count = 20 := by omega
    refine ⟨s.sum_freq / 20, ?_, ?_, ?_⟩
    · rw [average_of_count s (by omega) (by unfold ULONG_RANGE; omega), hc20]
      rfl
    · omega
    · omega

end CapSensePiano
